import Mathlib

/-!
# SequenceParser: the `Sequence` class and its helpers

A shallow embedding of `Sequence.cpp`, `Sequence.hpp` and `Sequence.tcc`.

* `std::string` is `List Char`; `size()` is `length`, `substr` is `drop`/`take`.
* `Time` comes from `common.hpp`, which is not part of the sources at hand: a signed
  integer type.  Times are mathematical integers here; every place where the code narrows
  one (`(int) time`, the conversion to `std::size_t`, the range check of
  `boost::lexical_cast<Time>`) is written out, the width of `Time` being the parameter
  `timeBits` of the functions that depend on it.
* `std::size_t` has 64 bits and `int` has 32.
* A member `_x` of the class is the field `x_` of the structure.
-/

namespace sequenceParser

/-! ## Strings and numbers -/

/-- A `std::string`. -/
abbrev Str := List Char

/-- A frame number, see `common.hpp`. -/
abbrev Time := Int

/-- The number of values of a `std::size_t`. -/
def SIZE_MOD : Nat := 18446744073709551616

/-- The cast to `int`: the value modulo `2^32`, read as a signed 32-bit number. -/
def toInt32 (x : Int) : Int := (x + 2147483648) % 4294967296 - 2147483648

/-- The conversion of a signed value to `std::size_t`: the value modulo `2^64`. -/
def toSizeT (x : Int) : Nat := (x % (SIZE_MOD : Int)).toNat

/-- The function `std::abs` on an `int`.  At `INT_MIN` the negation does not fit an `int`
(undefined behaviour in C++); the usual two's complement result, `INT_MIN` again, is what
the model returns there. -/
def absInt (x : Int) : Int := toInt32 (if x < 0 then -x else x)

/-- The decimal text `operator<<` and `lexical_cast<std::string>` write for an unsigned
number. -/
def showNat (n : Nat) : Str := Nat.toDigits 10 n

/-- The decimal text `operator<<` writes for a signed number. -/
def showInt (v : Int) : Str :=
  if v < 0 then '-' :: showNat v.natAbs else showNat v.natAbs

/-- The field width `std::setw( _padding )` sets: `setw` takes an `int`, the padding is a
`std::size_t`. -/
def setw (padding : Nat) : Int := toInt32 (padding : Int)

/-- The text written by `o << std::setw( w ) << std::setfill( c ) << v` for the text `text`
of `v`: filled on the left with `c` up to `w` characters, never cut. -/
def putFilled (w : Int) (c : Char) (text : Str) : Str :=
  List.replicate (w - (text.length : Int)).toNat c ++ text

/-- The member `substr( pos, n )` of `std::string`, for `pos ≤ size()`. -/
def substr (s : Str) (pos n : Nat) : Str := (s.drop pos).take n

/-- Whether a character is one of `0` .. `9`. -/
def isDigit (c : Char) : Bool := decide ('0' ≤ c) && decide (c ≤ '9')

/-- The value of a character `0` .. `9`. -/
def digitValue (c : Char) : Nat := c.toNat - 48

/-- The number a run of digits denotes. -/
def digitsValue (ds : Str) : Nat := ds.foldl (fun acc c => 10 * acc + digitValue c) 0

/-- The unsigned parser of Boost (`lcast_ret_unsigned`): a non-empty run of digits denotes its
value; anything else fails.  The bound of the target type is checked by the callers. -/
def lcastUnsigned (ds : Str) : Option Nat :=
  if ds ≠ [] ∧ ds.all isDigit = true then some (digitsValue ds) else none

/-- The function `boost::lexical_cast<Time>` on a string, for a `Time` of `timeBits` bits:
an optional `+` or `-`, then digits; `none` stands for the exception `bad_lexical_cast`
(empty text, a character that is not a digit, a value out of the range of `Time`). -/
def lexicalCastTime (timeBits : Nat) (s : Str) : Option Time :=
  match s with
  | [] => none
  | c :: rest =>
    let hasMinus := c = '-'
    let digits := if hasMinus ∨ c = '+' then rest else s
    match lcastUnsigned digits with
    | none => none
    | some v =>
      if hasMinus then
        if v ≤ 2 ^ (timeBits - 1) then some (-(v : Int)) else none
      else
        if v ≤ 2 ^ (timeBits - 1) - 1 then some (v : Int) else none

/-- The function `boost::lexical_cast<std::size_t>` on a string: an optional sign, then
digits whose value fits 64 bits; a leading `-` negates modulo `2^64`; `none` stands for
the exception `bad_lexical_cast`. -/
def lexicalCastSize (s : Str) : Option Nat :=
  match s with
  | [] => none
  | c :: rest =>
    let hasMinus := c = '-'
    let digits := if hasMinus ∨ c = '+' then rest else s
    match lcastUnsigned digits with
    | none => none
    | some v =>
      if v < SIZE_MOD then
        some (if hasMinus then (SIZE_MOD - v) % SIZE_MOD else v)
      else none

/-! ## The class `Sequence` -/

/-- A range of frames `first`, `first + step`, .. up to `last` (`FrameRange.hpp`). -/
structure FrameRange where
  first : Time
  last : Time
  step : Nat
  deriving DecidableEq, Repr

/-- The data members of `Sequence`. -/
structure Sequence where
  prefix_ : Str
  suffix_ : Str
  strictPadding_ : Bool
  padding_ : Nat
  ranges_ : List FrameRange
  deriving DecidableEq, Repr

/-- The filling character `_fillCar`. -/
def Sequence.fillCar_ : Char := '0'

/-- The member `getFilenameAt`. -/
def Sequence.getFilenameAt (s : Sequence) (time : Time) : Str :=
  if time ≥ 0 then
    s.prefix_ ++ putFilled (setw s.padding_) Sequence.fillCar_ (showInt time) ++ s.suffix_
  else
    s.prefix_ ++ ['-']
      ++ putFilled (setw s.padding_) Sequence.fillCar_ (showInt (absInt (toInt32 time)))
      ++ s.suffix_

/-- The member `isIn`.  The two output parameters come in with the values `time` and
`timeStr` and the result holds the returned boolean and their values after the call: the
text is assigned before `lexical_cast` runs, the time only when it succeeds. -/
def Sequence.isIn (timeBits : Nat) (s : Sequence) (filename : Str) (time : Time)
    (timeStr : Str) : Bool × Time × Str :=
  let min := s.prefix_.length + s.suffix_.length
  if filename.length ≤ min then (false, time, timeStr)
  else if substr filename 0 s.prefix_.length ≠ s.prefix_
      ∨ substr filename (filename.length - s.suffix_.length) s.suffix_.length ≠ s.suffix_ then
    (false, time, timeStr)
  else
    let timeStr1 := substr filename s.prefix_.length
      (filename.length - s.suffix_.length - s.prefix_.length)
    match lexicalCastTime timeBits timeStr1 with
    | some t => (true, t, timeStr1)
    | none => (false, time, timeStr1)

/-- The member `getPadding`. -/
def Sequence.getPadding (s : Sequence) : Nat := s.padding_

/-- The member `getPrefix`. -/
def Sequence.getPrefix (s : Sequence) : Str := s.prefix_

/-- The member `getSuffix`. -/
def Sequence.getSuffix (s : Sequence) : Str := s.suffix_

/-- The member `getPatternCharacter`: `getPadding() ? '#' : '@'`. -/
def Sequence.getPatternCharacter (s : Sequence) : Char :=
  if s.getPadding ≠ 0 then '#' else '@'

/-- The member `getStandardPattern`; `std::string( n, c )` is `List.replicate n c`. -/
def Sequence.getStandardPattern (s : Sequence) : Str :=
  s.getPrefix
    ++ List.replicate (if s.getPadding ≠ 0 then s.getPadding else 1) s.getPatternCharacter
    ++ s.getSuffix

/-- The member `getCStylePattern`. -/
def Sequence.getCStylePattern (s : Sequence) : Str :=
  if s.getPadding ≠ 0 then
    s.getPrefix ++ ['%', '0'] ++ showNat s.getPadding ++ ['d'] ++ s.getSuffix
  else
    s.getPrefix ++ ['%', 'd'] ++ s.getSuffix

/-! ## Step and padding analysis -/

/-- The loop of `greatestCommonDivisor( a, b )`: `while( ( r = a % b ) != 0 ) { a = b; b = r; }`
followed by `return b`; `fuel` bounds the number of rounds, `b` of them are always enough. -/
def gcdLoop : Nat → Nat → Nat → Nat
  | 0, _, b => b
  | fuel + 1, a, b => if a % b = 0 then b else gcdLoop fuel b (a % b)

/-- The template `greatestCommonDivisor( a, b )`, which gives 0 when `b` is 0. -/
def greatestCommonDivisor (a b : Nat) : Nat :=
  if b = 0 then 0 else gcdLoop b a b

/-- The member `insert` of a `std::set<std::size_t>`, the set being the ascending list of its
elements. -/
def setInsert (x : Nat) : List Nat → List Nat
  | [] => [x]
  | y :: ys => if x < y then x :: y :: ys else if x = y then y :: ys else y :: setInsert x ys

/-- The loop of `greatestCommonDivisor( steps )` over the neighbours `*itA`, `*itB` of the
set, which inserts `greatestCommonDivisor( *itB, *itA )` into `allSteps`. -/
def gcdOfNeighbours : List Nat → List Nat → List Nat
  | a :: b :: rest, allSteps =>
    gcdOfNeighbours (b :: rest) (setInsert (greatestCommonDivisor b a) allSteps)
  | _, allSteps => allSteps

/-- The recursion of `greatestCommonDivisor( steps )`; each call works on a smaller set, so
`steps.size()` rounds are enough.  The source is never called on an empty set (it would
step past `end()`); the model gives 0 there. -/
def gcdOfSetAux : Nat → List Nat → Nat
  | 0, _ => 0
  | fuel + 1, steps =>
    match steps with
    | [] => 0
    | [x] => x
    | _ => gcdOfSetAux fuel (gcdOfNeighbours steps [])

/-- The function `greatestCommonDivisor( const std::set<std::size_t>& steps )`. -/
def greatestCommonDivisorSet (steps : List Nat) : Nat := gcdOfSetAux steps.length steps

/-- The loop of `extractStep` over the neighbours of `times`, which inserts `*itB - *itA`,
converted to `std::size_t`, into `allSteps`. -/
def stepsOfNeighbours : List Time → List Nat → List Nat
  | a :: b :: rest, allSteps => stepsOfNeighbours (b :: rest) (setInsert (toSizeT (b - a)) allSteps)
  | _, allSteps => allSteps

/-- The function `extractStep( const std::vector<Time>& times )`. -/
def extractStep (times : List Time) : Nat :=
  if times.length ≤ 1 then 1
  else greatestCommonDivisorSet (stepsOfNeighbours times [])

/-- The function `getPaddingFromStringNumber`. -/
def getPaddingFromStringNumber (timeStr : Str) : Nat :=
  if timeStr.length > 1 ∧ (timeStr.head? = some '-' ∨ timeStr.head? = some '+') then
    timeStr.length - 1
  else timeStr.length

/-- The function `extractIsStrictPadding( timesStr, padding )`; `s[0]` of an empty string is
the terminating NUL, which is not `'0'`. -/
def extractIsStrictPadding (timesStr : List Str) (padding : Nat) : Bool :=
  if padding = 0 then false
  else timesStr.any (fun s => decide (s.head? = some '0'))

/-- The function `extractIsStrictPadding( times, i, padding )` on a vector of `FileNumbers`.
The class `FileNumbers` is in `detail/FileNumbers.hpp`, which is not part of the sources at
hand: its member `getString` is the parameter. -/
def extractIsStrictPaddingAt {FileNumbers : Type} (getString : FileNumbers → Nat → Str)
    (times : List FileNumbers) (i padding : Nat) : Bool :=
  if padding = 0 then false
  else times.any (fun s => decide ((getString s i).head? = some '0'))

/-! ## The regular expressions of the four pattern flavours

`boost::regex` in its default (Perl) syntax is a backtracking matcher: the alternatives of a
pattern are tried in a fixed order of priority (a greedy repeat takes as many characters as it
can first, a lazy one as few, the left branch of `|` goes before the right one) and
`regex_match` keeps the first way of matching that uses up the whole text.  The matcher below
is written in continuation style: `k` is what remains to be matched, and a `none` from it makes
the matcher fall back to its next alternative.  Every repeat in `Sequence.cpp` is over a single
character. -/

/-- What a pattern matches one character against. -/
inductive CharSet where
  /-- The pattern `.`: any character (Boost lets it match a newline too). -/
  | any
  /-- One given character: `#`, `@`, `%`, `d`, or an escaped `\[`, `\]`, `\.`. -/
  | lit (c : Char)
  /-- A bracket set such as `[_\.]` or `[\-\+]`. -/
  | oneOf (cs : List Char)
  /-- The range `[0-9]`. -/
  | digit

/-- Whether a character belongs to a set. -/
def CharSet.test : CharSet → Char → Bool
  | .any, _ => true
  | .lit c, x => decide (x = c)
  | .oneOf cs, x => cs.contains x
  | .digit, x => isDigit x

/-- The regular expressions used by `Sequence.cpp`. -/
inductive Regex where
  /-- One character of a set. -/
  | one (a : CharSet)
  /-- The pattern `a?`. -/
  | opt (a : CharSet)
  /-- The pattern `a*` (greedy). -/
  | star (a : CharSet)
  /-- The pattern `a*?` (lazy). -/
  | starLazy (a : CharSet)
  /-- The pattern `a+` (greedy). -/
  | plus (a : CharSet)
  /-- One pattern after the other. -/
  | cat (r s : Regex)
  /-- The pattern `r|s`. -/
  | alt (r s : Regex)
  /-- The capturing group number `i`. -/
  | group (i : Nat) (r : Regex)

/-- The sub-matches `matches[i]`. -/
abbrev Captures := Nat → Str

/-- The sub-matches after group `i` has matched `v`. -/
def setCapture (c : Captures) (i : Nat) (v : Str) : Captures :=
  fun j => if j = i then v else c j

/-- A greedy repeat: one more character first, the rest of the pattern after that. -/
def runStar {α : Type} (a : Char → Bool) (k : Str → Option α) : Str → Option α
  | [] => k []
  | x :: t =>
    if a x then
      match runStar a k t with
      | some r => some r
      | none => k (x :: t)
    else k (x :: t)

/-- A lazy repeat: the rest of the pattern first, one more character after that. -/
def runStarLazy {α : Type} (a : Char → Bool) (k : Str → Option α) : Str → Option α
  | [] => k []
  | x :: t =>
    match k (x :: t) with
    | some r => some r
    | none => if a x then runStarLazy a k t else none

/-- The backtracking matcher: `r.run s c k` matches `r` at the start of `s`, then hands the
rest of the text and the sub-matches to `k`. -/
def Regex.run {α : Type} : Regex → Str → Captures → (Str → Captures → Option α) → Option α
  | .one a, s, c, k =>
    match s with
    | [] => none
    | x :: t => if a.test x then k t c else none
  | .opt a, s, c, k =>
    match s with
    | [] => k [] c
    | x :: t =>
      if a.test x then
        match k t c with
        | some r => some r
        | none => k (x :: t) c
      else k (x :: t) c
  | .star a, s, c, k => runStar a.test (fun t => k t c) s
  | .starLazy a, s, c, k => runStarLazy a.test (fun t => k t c) s
  | .plus a, s, c, k =>
    match s with
    | [] => none
    | x :: t => if a.test x then runStar a.test (fun u => k u c) t else none
  | .cat r₁ r₂, s, c, k => r₁.run s c (fun t c₁ => r₂.run t c₁ k)
  | .alt r₁ r₂, s, c, k =>
    match r₁.run s c k with
    | some r => some r
    | none => r₂.run s c k
  | .group i r, s, c, k =>
    r.run s c (fun t c₁ => k t (setCapture c₁ i (s.take (s.length - t.length))))

/-- The function `regex_match( text, matches, re )`: the sub-matches of the first way of
matching the whole text, `none` when there is none. -/
def regex_match (text : Str) (re : Regex) : Option Captures :=
  re.run text (fun _ => []) (fun t c => if t = [] then some c else none)

/-- The member `c_str()` as the regex functions read it: the characters before the first
NUL. -/
def c_str (s : Str) : Str := s.takeWhile (fun c => decide (c ≠ Char.ofNat 0))

/-- Several patterns in a row. -/
def Regex.seq : List Regex → Regex
  | [] => .star (.oneOf [])
  | [r] => r
  | r :: rs => .cat r (Regex.seq rs)

/-- The pattern `regexPatternStandard`: `(.*?)\[?(#+|@+)\]?(.*?)`. -/
def regexPatternStandard : Regex :=
  Regex.seq [.group 1 (.starLazy .any), .opt (.lit '['),
    .group 2 (.alt (.plus (.lit '#')) (.plus (.lit '@'))), .opt (.lit ']'),
    .group 3 (.starLazy .any)]

/-- The pattern `regexPatternCStyle`: `(.*?)\[?%([0-9]*)d\]?(.*?)`. -/
def regexPatternCStyle : Regex :=
  Regex.seq [.group 1 (.starLazy .any), .opt (.lit '['), .one (.lit '%'),
    .group 2 (.star .digit), .one (.lit 'd'), .opt (.lit ']'), .group 3 (.starLazy .any)]

/-- The pattern `regexPatternFrame`: `(.*?[_\.]?)\[?([0-9]+)\]?([_\.]?.*\.?.*?)`. -/
def regexPatternFrame : Regex :=
  Regex.seq [.group 1 (.cat (.starLazy .any) (.opt (.oneOf ['_', '.']))), .opt (.lit '['),
    .group 2 (.plus .digit), .opt (.lit ']'),
    .group 3 (Regex.seq [.opt (.oneOf ['_', '.']), .star .any, .opt (.lit '.'),
      .starLazy .any])]

/-- The pattern `regexPatternFrameNeg`:
`(.*?[_\.]?)\[?([\-\+]?[0-9]+)\]?([_\.]?.*\.?.*?)`. -/
def regexPatternFrameNeg : Regex :=
  Regex.seq [.group 1 (.cat (.starLazy .any) (.opt (.oneOf ['_', '.']))), .opt (.lit '['),
    .group 2 (.cat (.opt (.oneOf ['-', '+'])) (.plus .digit)), .opt (.lit ']'),
    .group 3 (Regex.seq [.opt (.oneOf ['_', '.']), .star .any, .opt (.lit '.'),
      .starLazy .any])]

/-! ## Reading a pattern -/

/-- The enumerator `ePatternStandard`. -/
def ePatternStandard : Nat := 1
/-- The enumerator `ePatternCStyle`. -/
def ePatternCStyle : Nat := 2
/-- The enumerator `ePatternFrame`. -/
def ePatternFrame : Nat := 4
/-- The enumerator `ePatternFrameNeg`. -/
def ePatternFrameNeg : Nat := 8
/-- The enumerator `ePatternDefault`. -/
def ePatternDefault : Nat := ePatternCStyle + ePatternStandard
/-- The enumerator `ePatternAll`. -/
def ePatternAll : Nat := ePatternCStyle + ePatternStandard + ePatternFrameNeg

/-- The four output parameters of `retrieveInfosFromPattern`. -/
structure PatternInfos where
  prefix_ : Str
  suffix_ : Str
  padding : Nat
  strictPadding : Bool
  deriving DecidableEq, Repr

/-- How a call ends: it returns a value, or an exception leaves it. -/
inductive Outcome (α : Type) where
  | returned (value : α)
  | thrown
  deriving DecidableEq, Repr

/-- The member `retrieveInfosFromPattern`.  `out` holds the four output parameters as they
are when the call starts; the result is the returned boolean with their values after the
call.  `lexical_cast<std::size_t>` is the one place an exception can come from. -/
def retrieveInfosFromPattern (filePattern : Str) (accept : Nat) (out : PatternInfos) :
    Outcome (Bool × PatternInfos) :=
  let finish (m : Captures) (padding : Nat) (strictPadding : Bool) :
      Outcome (Bool × PatternInfos) :=
    .returned (true, ⟨m 1, m 3, padding, strictPadding⟩)
  match (if accept &&& ePatternStandard ≠ 0
      then regex_match (c_str filePattern) regexPatternStandard else none) with
  | some m => finish m (m 2).length (decide ((m 2).head? = some '#'))
  | none =>
  match (if accept &&& ePatternCStyle ≠ 0
      then regex_match (c_str filePattern) regexPatternCStyle else none) with
  | some m =>
    if (m 2).length = 0 then finish m 0 false
    else
      match lexicalCastSize (m 2) with
      | some n => finish m n false
      | none => .thrown
  | none =>
  match (if accept &&& ePatternFrame ≠ 0
      then regex_match (c_str filePattern) regexPatternFrame else none) with
  | some m => finish m (m 2).length false
  | none =>
  match (if accept &&& ePatternFrameNeg ≠ 0
      then regex_match (c_str filePattern) regexPatternFrameNeg else none) with
  | some m => finish m (m 2).length false
  | none => .returned (false, out)

/-! ## Notions of the specification -/

/-- From the spec (`zeroPad(n, width)`): the decimal digits of `n`, filled on the left with
`'0'` up to `width` characters and never cut. -/
def zeroPad (n width : Nat) : Str :=
  List.replicate (width - (Nat.repr n).length) '0' ++ (Nat.repr n).toList

/-- From the spec (`extractStep`): the successive differences of a list of times. -/
def successiveDifferences : List Int → List Int
  | a :: b :: rest => (b - a) :: successiveDifferences (b :: rest)
  | _ => []

/-- From the spec (`extractStep`): the greatest common divisor of a list of numbers. -/
def gcdOfList (l : List Nat) : Nat := l.foldr Nat.gcd 0

/-- Whether a time is a value of a signed type of at most 64 bits. -/
def IsTime64 (t : Int) : Prop := -9223372036854775808 ≤ t ∧ t < 9223372036854775808

/-! ## Recognising a pattern and filling a sequence from it -/

/-- The enumerator `ePatternNone`. -/
def ePatternNone : Nat := 0

/-- The member `checkPattern`.  The enumeration `EDetection` is in `commonDefinitions.hpp`,
which is not part of the sources at hand: the value of `eDetectionNegative` is the
parameter. -/
def checkPattern (pattern : Str) (detectionOptions eDetectionNegative : Nat) : Nat :=
  if (regex_match (c_str pattern) regexPatternStandard).isSome then ePatternStandard
  else if (regex_match (c_str pattern) regexPatternCStyle).isSome then ePatternCStyle
  else if detectionOptions &&& eDetectionNegative ≠ 0
      ∧ (regex_match (c_str pattern) regexPatternFrameNeg).isSome then ePatternFrameNeg
  else if (regex_match (c_str pattern) regexPatternFrame).isSome then ePatternFrame
  else ePatternNone

/-- The constructor `FrameRange( first, last, step )`; the step, given as a `Time`, is kept as
a `std::size_t`. -/
def FrameRange.make (first last step : Time) : FrameRange := ⟨first, last, toSizeT step⟩

/-- The member `init`. -/
def Sequence.init (_s : Sequence) (pre : Str) (padding : Nat) (suffix : Str)
    (firstTime lastTime step : Time) (strictPadding : Bool) : Sequence :=
  ⟨pre, suffix, strictPadding, padding, [FrameRange.make firstTime lastTime step]⟩

/-- The member `initFromPattern`: the four members are handed to `retrieveInfosFromPattern`
by reference, the ranges are replaced only when it returns true.  The result is the returned
boolean and the sequence after the call. -/
def Sequence.initFromPattern (s : Sequence) (pattern : Str) (firstTime lastTime step : Time)
    (accept : Nat) : Outcome (Bool × Sequence) :=
  match retrieveInfosFromPattern pattern accept
      ⟨s.prefix_, s.suffix_, s.padding_, s.strictPadding_⟩ with
  | .thrown => .thrown
  | .returned (ok, i) =>
    if ok then
      .returned (true, ⟨i.prefix_, i.suffix_, i.strictPadding, i.padding,
        [FrameRange.make firstTime lastTime step]⟩)
    else
      .returned (false, ⟨i.prefix_, i.suffix_, i.strictPadding, i.padding, s.ranges_⟩)

/-- The member `hasMissingFile`: `_ranges.size() != 1 || _ranges.front().step != 1`; the
second operand is read only when there is exactly one range. -/
def Sequence.hasMissingFile (s : Sequence) : Bool :=
  decide (s.ranges_.length ≠ 1) ||
    (match s.ranges_ with
     | r :: _ => decide (r.step ≠ 1)
     | [] => false)

/-- The conversion of a value to `Time`, a signed type of `timeBits` bits: the value modulo
`2^timeBits`, read as a signed number. -/
def toTime (timeBits : Nat) (x : Int) : Time :=
  (x + ((2 ^ (timeBits - 1) : Nat) : Int)) % ((2 ^ timeBits : Nat) : Int)
    - ((2 ^ (timeBits - 1) : Nat) : Int)

/-- The loop `for( Time t = range.first; t <= range.last; t += range.step )` of `getFiles`,
started at `t`; `fuel` bounds the number of rounds and `none` says that it ran out.  The
statement `t += range.step` adds a `std::size_t` to a `Time` of `timeBits` bits (no more than
the 64 bits of `std::size_t`): the sum is formed in the unsigned type and converted back,
which gives the sum modulo `2^timeBits` read as a signed number. -/
def filesOfRange (timeBits : Nat) (s : Sequence) (last : Time) (step : Nat) :
    Nat → Time → Option (List Str)
  | 0, _ => none
  | fuel + 1, t =>
    if t ≤ last then
      match filesOfRange timeBits s last step fuel (toTime timeBits (t + (step : Int))) with
      | some rest => some (s.getFilenameAt t :: rest)
      | none => none
    else some []

/-- The loop of `getFiles` over the ranges. -/
def filesOfRanges (timeBits : Nat) (s : Sequence) (fuel : Nat) :
    List FrameRange → Option (List Str)
  | [] => some []
  | r :: rs =>
    match filesOfRange timeBits s r.last r.step fuel r.first,
      filesOfRanges timeBits s fuel rs with
    | some a, some b => some (a ++ b)
    | _, _ => none

/-- The member `getFiles` for a `Time` of `timeBits` bits, each of its inner loops running for
at most `fuel` rounds. -/
def Sequence.getFiles (s : Sequence) (timeBits fuel : Nat) : Option (List Str) :=
  filesOfRanges timeBits s fuel s.ranges_

/-- The operator `==` of `Sequence`. -/
def Sequence.beq (a b : Sequence) : Bool :=
  decide (a.prefix_ = b.prefix_) && decide (a.suffix_ = b.suffix_)
    && decide (a.padding_ = b.padding_) && decide (a.ranges_ = b.ranges_)

/-- The operator `!=` of `Sequence`. -/
def Sequence.bne (a b : Sequence) : Bool := !(a.beq b)

/-- The function `extractPadding( timesStr )` on the raw frame strings; the source asserts
that the vector is not empty. -/
def extractPadding (timesStr : List Str) : Nat :=
  match timesStr with
  | [] => 0
  | front :: _ =>
    let padding := getPaddingFromStringNumber front
    if timesStr.all (fun s => decide (padding = getPaddingFromStringNumber s)) then padding
    else 0

/-- From the spec (`files()`): the times `first`, `first + step`, .. of a range up to
`last`. -/
def timesOfRange (r : FrameRange) : List Int :=
  if r.first ≤ r.last then
    (List.range (((r.last - r.first) / (r.step : Int)).toNat + 1)).map
      (fun (i : Nat) => r.first + (i : Int) * (r.step : Int))
  else []

/-- From the spec (`files()`): the times of all the ranges, range after range. -/
def timesOfRanges : List FrameRange → List Int
  | [] => []
  | r :: rs => timesOfRange r ++ timesOfRanges rs

/-! ## The detectors

The classes `FileStrings` and `FileNumbers`, the functions `decomposeFilename`,
`buildSequences` and `filenameIsNotFilter`, the member `FrameRange::getNbFrames` and the
enumeration `EMaskOptions` are declared in headers that are not among the sources at hand, and
`is_directory` asks the file system: the definitions below take them as parameters.  The
hash map from `FileStrings` to the members of a bucket is a list of buckets in the order in
which their keys were first met. -/

/-- The member `getNbFiles`. -/
def Sequence.getNbFiles (getNbFrames : FrameRange → Time) (s : Sequence) : Time :=
  s.ranges_.foldl (fun nbFiles frameRange => nbFiles + getNbFrames frameRange) 0

/-- The member `getFirstTime`, `_ranges.front().first`.  On a sequence without a range the
source reads the front of an empty vector; the model gives 0 there. -/
def Sequence.getFirstTime (s : Sequence) : Time :=
  match s.ranges_ with
  | r :: _ => r.first
  | [] => 0

/-- The member `getFirstFilename`. -/
def Sequence.getFirstFilename (s : Sequence) : Str := s.getFilenameAt s.getFirstTime

/-- The name that `fileInDirectory` and `fileAndSequenceInDirectory` give to the file of a
bucket with one member: `p.first[0]`, then `p.second[0].getString(0)`, then `p.first[1]`.
Here `frag i` is `p.first[i]` and `getString i` is `p.second[0].getString( i )`. -/
def singletonFilename (frag : Nat → Str) (getString : Nat → Str) : Str :=
  frag 0 ++ getString 0 ++ frag 1

/-- The name that `fileObjectInDirectory` gives to the file of a bucket with one member: it
starts with `p.first.getId().at( 0 )` and adds `getString( i )` and `getId().at( i+1 )` for
every `i` below `p.second[0].size()`.  Here `fragAt i` is `getId().at( i )`, with `none` for
its exception. -/
def singletonFilenameAll (fragAt : Nat → Option Str) (getString : Nat → Str) (size : Nat) :
    Option Str :=
  (List.range size).foldl
    (fun filename i =>
      match filename, fragAt (i + 1) with
      | some f, some s => some (f ++ getString i ++ s)
      | _, _ => none)
    (fragAt 0)

/-- The update of the map in the scanning loops: the numbers are appended to the bucket of
their key, or a new bucket is made. -/
def insertBucket {FS FN : Type} [DecidableEq FS] (sequences : List (FS × List FN)) (k : FS)
    (v : FN) : List (FS × List FN) :=
  match sequences with
  | [] => [(k, [v])]
  | (k₁, vs) :: rest =>
    if k₁ = k then (k₁, vs ++ [v]) :: rest else (k₁, vs) :: insertBucket rest k v

/-- One round of the scanning loop of `sequenceFromFilenameList`; `filename` is
`iter.filename().string()`, whose character 0 is NUL when the name is empty. -/
def scanFilename {FS FN : Type} [DecidableEq FS] (desc eMaskOptionsDotFile : Nat)
    (filenameIsNotFilter : Str → Bool) (decomposeFilename : Str → Nat → Option (FS × FN))
    (sequences : List (FS × List FN)) (filename : Str) : List (FS × List FN) :=
  if ¬ (filename.headD (Char.ofNat 0) = '.') ∨ desc &&& eMaskOptionsDotFile ≠ 0 then
    if filenameIsNotFilter filename then
      match decomposeFilename filename desc with
      | some (k, v) => insertBucket sequences k v
      | none => sequences
    else sequences
  else sequences

/-- The scanning loop of `sequenceFromFilenameList`: the buckets of a list of file names. -/
def bucketsOfFilenameList {FS FN : Type} [DecidableEq FS] (desc eMaskOptionsDotFile : Nat)
    (filenameIsNotFilter : Str → Bool) (decomposeFilename : Str → Nat → Option (FS × FN))
    (filenames : List Str) : List (FS × List FN) :=
  filenames.foldl (scanFilename desc eMaskOptionsDotFile filenameIsNotFilter decomposeFilename)
    []

/-- The body of the inner output loop of `sequenceInDirectory` and
`sequenceFromFilenameList`. -/
def pushSequence (isDirectory : Sequence → Bool) (getNbFrames : FrameRange → Time)
    (outputSequences : List Sequence) (s : Sequence) : List Sequence :=
  if ¬ (isDirectory s = true) then
    if ¬ (s.getNbFiles getNbFrames = 1) then outputSequences ++ [s] else outputSequences
  else outputSequences

/-- The output loop of `sequenceInDirectory` and `sequenceFromFilenameList` over the
buckets. -/
def sequencesOfBuckets {FS FN : Type} (buildSequences : FS → List FN → List Sequence)
    (isDirectory : Sequence → Bool) (getNbFrames : FrameRange → Time)
    (sequences : List (FS × List FN)) : List Sequence :=
  sequences.foldl
    (fun out p => (buildSequences p.1 p.2).foldl (pushSequence isDirectory getNbFrames) out) []

/-- The function `sequenceFromFilenameList` on the file names of its paths. -/
def sequenceFromFilenameList {FS FN : Type} [DecidableEq FS] (desc eMaskOptionsDotFile : Nat)
    (filenameIsNotFilter : Str → Bool) (decomposeFilename : Str → Nat → Option (FS × FN))
    (buildSequences : FS → List FN → List Sequence) (isDirectory : Sequence → Bool)
    (getNbFrames : FrameRange → Time) (filenames : List Str) : List Sequence :=
  sequencesOfBuckets buildSequences isDirectory getNbFrames
    (bucketsOfFilenameList desc eMaskOptionsDotFile filenameIsNotFilter decomposeFilename
      filenames)

/-- The body of the inner output loop of `fileAndSequenceInDirectory` and
`fileObjectInDirectory`; the state is the names of `outputFiles` and `outputSequences`. -/
def pushFileObject (isDirectory : Sequence → Bool) (getNbFrames : FrameRange → Time)
    (out : List Str × List Sequence) (s : Sequence) : List Str × List Sequence :=
  if ¬ (isDirectory s = true) then
    if s.getNbFiles getNbFrames = 1 then (out.1 ++ [s.getFirstFilename], out.2)
    else (out.1, out.2 ++ [s])
  else out

/-- The body of the output loop of `fileAndSequenceInDirectory` and `fileObjectInDirectory`
for one bucket; `name` is the file name made for a bucket of one member. -/
def pushBucket {FS FN : Type} (name : FS → FN → Str)
    (buildSequences : FS → List FN → List Sequence) (isDirectory : Sequence → Bool)
    (getNbFrames : FrameRange → Time) (out : List Str × List Sequence) (p : FS × List FN) :
    List Str × List Sequence :=
  match p.2 with
  | [v] => (out.1 ++ [name p.1 v], out.2)
  | _ => (buildSequences p.1 p.2).foldl (pushFileObject isDirectory getNbFrames) out

/-- The output loop of `fileAndSequenceInDirectory` and `fileObjectInDirectory` over the
buckets, started with the names of the plain files found by the scan. -/
def fileObjectsOfBuckets {FS FN : Type} (name : FS → FN → Str)
    (buildSequences : FS → List FN → List Sequence) (isDirectory : Sequence → Bool)
    (getNbFrames : FrameRange → Time) (outputFiles : List Str)
    (sequences : List (FS × List FN)) : List Str × List Sequence :=
  sequences.foldl (pushBucket name buildSequences isDirectory getNbFrames) (outputFiles, [])

/-- From the spec (filename preservation): the fragments with the raw numbers spliced back
in, `s0 n0 s1 n1 .. sN`. -/
def splice : List Str → List Str → Str
  | s :: ss, n :: ns => s ++ n ++ splice ss ns
  | s :: _, [] => s
  | [], _ => []

/-- The member `erase( key )` of a `std::set<std::size_t>`, the set being the ascending list
of its elements. -/
def setErase (x : Nat) (set : List Nat) : List Nat := set.filter (fun y => decide (y ≠ x))

/-- The function `extractPadding( timesBegin, timesEnd, i )` on a run of `FileNumbers`; the
source asserts that the run is not empty.  The class `FileNumbers` is in
`detail/FileNumbers.hpp`, which is not part of the sources at hand: its member `getPadding`
is the parameter.  The set `nbDigits`, which the same loop fills, is not read afterwards. -/
def extractPaddingAt {FileNumbers : Type} (getPadding : FileNumbers → Nat → Nat)
    (times : List FileNumbers) (i : Nat) : Nat :=
  let padding := times.foldl (fun set s => setInsert (getPadding s i) set) []
  let pad := setErase 0 padding
  if pad.length = 0 then 0
  else if pad.length = 1 then pad.headD 0
  else 0

/-! # Properties -/

/-! ## Decimal digits -/

theorem toDigitsCore_succ (f n : Nat) (acc : List Char) :
    Nat.toDigitsCore 10 (f + 1) n acc =
      if n / 10 = 0 then Nat.digitChar (n % 10) :: acc
      else Nat.toDigitsCore 10 f (n / 10) (Nat.digitChar (n % 10) :: acc) := by
  rfl

theorem toDigitsCore_eq (fuel : Nat) : ∀ (n : Nat) (acc : List Char), n < fuel →
    Nat.toDigitsCore 10 fuel n acc = Nat.toDigitsCore 10 (n + 1) n [] ++ acc := by
  induction fuel using Nat.strong_induction_on with
  | _ fuel ih =>
    intro n acc hn
    cases fuel with
    | zero => omega
    | succ f =>
      rw [toDigitsCore_succ f, toDigitsCore_succ n]
      by_cases h0 : n / 10 = 0
      · simp [h0]
      · have hlt : n / 10 < n := Nat.div_lt_self (by omega) (by decide)
        simp only [h0, if_false]
        rw [ih f (by omega) _ _ (by omega), ih n (by omega) _ [_] hlt]
        simp

theorem showNat_lt_ten {n : Nat} (h : n < 10) : showNat n = [Nat.digitChar n] := by
  have h0 : n / 10 = 0 := Nat.div_eq_of_lt h
  simp [showNat, Nat.toDigits, toDigitsCore_succ, h0, Nat.mod_eq_of_lt h]

theorem showNat_ge_ten {n : Nat} (h : 10 ≤ n) :
    showNat n = showNat (n / 10) ++ [Nat.digitChar (n % 10)] := by
  have h0 : n / 10 ≠ 0 := by
    intro h0
    have := (Nat.div_eq_zero_iff (by decide : 0 < 10)).mp h0
    omega
  have hlt : n / 10 < n := Nat.div_lt_self (by omega) (by decide)
  unfold showNat Nat.toDigits
  rw [toDigitsCore_succ n, if_neg h0, toDigitsCore_eq n (n / 10) _ hlt]

theorem isDigit_digitChar {d : Nat} (h : d < 10) : isDigit (Nat.digitChar d) = true := by
  interval_cases d <;> decide

theorem digitValue_digitChar {d : Nat} (h : d < 10) : digitValue (Nat.digitChar d) = d := by
  interval_cases d <;> decide

theorem digitsValue_append (ds : Str) (c : Char) :
    digitsValue (ds ++ [c]) = 10 * digitsValue ds + digitValue c := by
  simp [digitsValue, List.foldl_append]

theorem showNat_spec (n : Nat) :
    showNat n ≠ [] ∧ (∀ c ∈ showNat n, isDigit c = true) ∧ digitsValue (showNat n) = n := by
  induction n using Nat.strong_induction_on with
  | _ n ih =>
    by_cases h : n < 10
    · rw [showNat_lt_ten h]
      refine ⟨by simp, ?_, ?_⟩
      · intro c hc
        simp only [List.mem_singleton] at hc
        rw [hc]; exact isDigit_digitChar h
      · simp [digitsValue, digitValue_digitChar h]
    · have h10 : 10 ≤ n := by omega
      obtain ⟨_, hd, hv⟩ := ih (n / 10) (Nat.div_lt_self (by omega) (by decide))
      rw [showNat_ge_ten h10]
      refine ⟨by simp, ?_, ?_⟩
      · intro c hc
        rcases List.mem_append.mp hc with hc | hc
        · exact hd c hc
        · simp only [List.mem_singleton] at hc
          rw [hc]; exact isDigit_digitChar (Nat.mod_lt _ (by decide))
      · rw [digitsValue_append, hv, digitValue_digitChar (Nat.mod_lt _ (by decide))]
        omega

theorem digitsValue_zero_cons (ds : Str) : digitsValue ('0' :: ds) = digitsValue ds := by
  simp [digitsValue, digitValue]

theorem digitsValue_replicate_zero (k : Nat) (ds : Str) :
    digitsValue (List.replicate k '0' ++ ds) = digitsValue ds := by
  induction k with
  | zero => simp
  | succ k ih => rw [List.replicate_succ, List.cons_append, digitsValue_zero_cons, ih]

theorem lcastUnsigned_putFilled (w : Int) (n : Nat) :
    lcastUnsigned (putFilled w '0' (showNat n)) = some n := by
  obtain ⟨hne, hd, hv⟩ := showNat_spec n
  have hall : (putFilled w '0' (showNat n)).all isDigit = true := by
    rw [List.all_eq_true]
    intro c hc
    rcases List.mem_append.mp hc with hc | hc
    · rw [(List.mem_replicate.mp hc).2]; decide
    · exact hd c hc
  have hne2 : putFilled w '0' (showNat n) ≠ [] := by
    simp [putFilled, hne]
  simp only [lcastUnsigned, hall, hne2, ne_eq, not_false_eq_true, and_self, if_true]
  rw [putFilled, digitsValue_replicate_zero, hv]

theorem putFilled_head (w : Int) (n : Nat) :
    ∃ c rest, putFilled w '0' (showNat n) = c :: rest ∧ c ≠ '-' ∧ c ≠ '+' := by
  obtain ⟨hne, hd, _⟩ := showNat_spec n
  have hdig : ∀ c ∈ putFilled w '0' (showNat n), isDigit c = true := by
    intro c hc
    rcases List.mem_append.mp hc with hc | hc
    · rw [(List.mem_replicate.mp hc).2]; decide
    · exact hd c hc
  cases h : putFilled w '0' (showNat n) with
  | nil => simp [putFilled, hne] at h
  | cons c rest =>
    refine ⟨c, rest, rfl, ?_, ?_⟩
    · rintro rfl
      have := hdig '-' (by rw [h]; simp)
      exact absurd this (by decide)
    · rintro rfl
      have := hdig '+' (by rw [h]; simp)
      exact absurd this (by decide)

theorem lexicalCastTime_putFilled (timeBits : Nat) (w : Int) (n : Nat)
    (h : n ≤ 2 ^ (timeBits - 1) - 1) :
    lexicalCastTime timeBits (putFilled w '0' (showNat n)) = some (n : Int) := by
  obtain ⟨c, rest, hcr, hm, hp⟩ := putFilled_head w n
  have hl := lcastUnsigned_putFilled w n
  rw [hcr] at hl ⊢
  simp [lexicalCastTime, hm, hp, hl, h]

theorem lexicalCastTime_minus_putFilled (timeBits : Nat) (w : Int) (n : Nat)
    (h : n ≤ 2 ^ (timeBits - 1)) :
    lexicalCastTime timeBits ('-' :: putFilled w '0' (showNat n)) = some (-(n : Int)) := by
  have hl := lcastUnsigned_putFilled w n
  simp [lexicalCastTime, hl, h]

/-! ## `isIn` on a name that is prefix, middle, suffix -/

theorem isIn_append (timeBits : Nat) (s : Sequence) (mid : Str) (time : Time) (timeStr : Str)
    (hmid : mid ≠ []) :
    s.isIn timeBits (s.prefix_ ++ mid ++ s.suffix_) time timeStr =
      match lexicalCastTime timeBits mid with
      | some t => (true, t, mid)
      | none => (false, time, mid) := by
  have hlen : 0 < mid.length := List.length_pos.mpr hmid
  have h1 : ¬ (s.prefix_ ++ mid ++ s.suffix_).length ≤ s.prefix_.length + s.suffix_.length := by
    simp only [List.length_append]; omega
  have h2 : substr (s.prefix_ ++ mid ++ s.suffix_) 0 s.prefix_.length = s.prefix_ := by
    simp [substr, List.append_assoc]
  have h3 : substr (s.prefix_ ++ mid ++ s.suffix_)
      ((s.prefix_ ++ mid ++ s.suffix_).length - s.suffix_.length) s.suffix_.length
        = s.suffix_ := by
    have : (s.prefix_ ++ mid ++ s.suffix_).length - s.suffix_.length
        = (s.prefix_ ++ mid).length := by simp only [List.length_append]; omega
    rw [this, substr, List.drop_left]
    simp
  have h4 : substr (s.prefix_ ++ mid ++ s.suffix_) s.prefix_.length
      ((s.prefix_ ++ mid ++ s.suffix_).length - s.suffix_.length - s.prefix_.length) = mid := by
    have : (s.prefix_ ++ mid ++ s.suffix_).length - s.suffix_.length - s.prefix_.length
        = mid.length := by simp only [List.length_append]; omega
    rw [this, substr, List.append_assoc, List.drop_left]
    simp
  simp only [Sequence.isIn, h1, h2, h3, h4, if_false, ne_eq, not_true_eq_false, or_self]

theorem isDigit_ne_sign {c : Char} (h : isDigit c = true) : c ≠ '-' ∧ c ≠ '+' := by
  constructor <;> rintro rfl <;> exact absurd h (by decide)

theorem lcastUnsigned_eq_some {ds : Str} {v : Nat} :
    lcastUnsigned ds = some v ↔
      ds ≠ [] ∧ (∀ c ∈ ds, isDigit c = true) ∧ v = digitsValue ds := by
  unfold lcastUnsigned
  by_cases h : ds ≠ [] ∧ ds.all isDigit = true
  · rw [if_pos h]
    have h2 := List.all_eq_true.mp h.2
    constructor
    · intro hv
      exact ⟨h.1, h2, (Option.some.inj hv).symm⟩
    · rintro ⟨_, _, rfl⟩; rfl
  · rw [if_neg h]
    constructor
    · intro hv; cases hv
    · rintro ⟨h1, h2, _⟩
      exact absurd ⟨h1, List.all_eq_true.mpr h2⟩ h

theorem lexicalCastTime_cons (timeBits : Nat) (c : Char) (rest : Str) :
    lexicalCastTime timeBits (c :: rest) =
      match lcastUnsigned (if c = '-' ∨ c = '+' then rest else c :: rest) with
      | none => none
      | some v =>
        if c = '-' then
          if v ≤ 2 ^ (timeBits - 1) then some (-(v : Int)) else none
        else
          if v ≤ 2 ^ (timeBits - 1) - 1 then some (v : Int) else none := by
  rfl

theorem toInt32_of_range {x : Int} (h1 : -2147483648 ≤ x) (h2 : x < 2147483648) :
    toInt32 x = x := by
  unfold toInt32
  omega

theorem absInt_neg (t : Int) (h : t < 0) (h31 : -2147483648 < t) : absInt t = -t := by
  unfold absInt
  rw [if_pos h]
  exact toInt32_of_range (by omega) (by omega)

theorem showInt_nonneg (v : Int) (h : 0 ≤ v) : showInt v = showNat v.natAbs := by
  unfold showInt
  rw [if_neg (not_lt.mpr h)]

theorem getFilenameAt_nonneg (s : Sequence) (t : Int) (h : 0 ≤ t) :
    s.getFilenameAt t
      = s.prefix_ ++ putFilled (setw s.padding_) '0' (showNat t.toNat) ++ s.suffix_ := by
  have h2 : t.natAbs = t.toNat := by omega
  unfold Sequence.getFilenameAt
  rw [if_pos (ge_iff_le.mpr h), showInt_nonneg _ h, h2]
  rfl

theorem getFilenameAt_neg (s : Sequence) (t : Int) (h : t < 0) (h31 : -2147483648 < t) :
    s.getFilenameAt t
      = s.prefix_ ++ ('-' :: putFilled (setw s.padding_) '0' (showNat t.natAbs))
          ++ s.suffix_ := by
  have h2 : toInt32 t = t := toInt32_of_range (by omega) (by omega)
  have h3 : absInt t = -t := absInt_neg t h h31
  have h4 : (0 : Int) ≤ -t := by omega
  have h5 : (-t).natAbs = t.natAbs := Int.natAbs_neg t
  unfold Sequence.getFilenameAt
  rw [if_neg (not_le.mpr h), h2, h3, showInt_nonneg _ h4, h5]
  show s.prefix_ ++ ['-'] ++ putFilled (setw s.padding_) '0' (showNat t.natAbs) ++ s.suffix_ = _
  rw [List.append_assoc s.prefix_ ['-'], List.singleton_append]

theorem putFilled_eq_zeroPad (padding n : Nat) (h : padding < 2147483648) :
    putFilled (setw padding) '0' (showNat n) = zeroPad n padding := by
  have h1 : setw padding = (padding : Int) := toInt32_of_range (by omega) (by omega)
  have h4 : ((padding : Int) - ((showNat n).length : Int)).toNat
      = padding - (showNat n).length := by omega
  unfold putFilled zeroPad
  rw [h1, h4]
  rfl

theorem isIn_getFilenameAt (timeBits : Nat) (s : Sequence) (t time : Int) (timeStr : Str)
    (h31 : -2147483648 < t) (hlo : -((2 ^ (timeBits - 1) : Nat) : Int) ≤ t)
    (hhi : t < ((2 ^ (timeBits - 1) : Nat) : Int)) :
    ∃ raw, s.getFilenameAt t = s.prefix_ ++ raw ++ s.suffix_
      ∧ s.isIn timeBits (s.getFilenameAt t) time timeStr = (true, t, raw)
      ∧ lexicalCastTime timeBits raw = some t := by
  obtain ⟨P, hPe⟩ : ∃ P, 2 ^ (timeBits - 1) = P := ⟨_, rfl⟩
  have hP : 0 < P := by rw [← hPe]; exact pow_pos (by decide) _
  rw [hPe] at hlo hhi
  by_cases h : 0 ≤ t
  · have hc : lexicalCastTime timeBits (putFilled (setw s.padding_) '0' (showNat t.toNat))
        = some t := by
      rw [lexicalCastTime_putFilled timeBits _ _ (by rw [hPe]; omega)]
      congr 1
      omega
    obtain ⟨c, rest, hcr, _, _⟩ := putFilled_head (setw s.padding_) t.toNat
    refine ⟨putFilled (setw s.padding_) '0' (showNat t.toNat), getFilenameAt_nonneg s t h, ?_, hc⟩
    rw [getFilenameAt_nonneg s t h, isIn_append _ _ _ _ _ (by rw [hcr]; simp), hc]
  · have hneg : t < 0 := by omega
    have hc : lexicalCastTime timeBits ('-' :: putFilled (setw s.padding_) '0' (showNat t.natAbs))
        = some t := by
      rw [lexicalCastTime_minus_putFilled timeBits _ _ (by rw [hPe]; omega)]
      congr 1
      omega
    refine ⟨'-' :: putFilled (setw s.padding_) '0' (showNat t.natAbs),
      getFilenameAt_neg s t hneg h31, ?_, hc⟩
    rw [getFilenameAt_neg s t hneg h31, isIn_append _ _ _ _ _ (by simp), hc]


/-! ## Claims on `getFilenameAt`, `isIn` and the pattern texts -/

/-- C1: the round trip of `getFilenameAt` and `isIn` breaks at the time `-4294967297`.
`getFilenameAt` narrows a negative time to an `int` before it prints it, so the name it
gives is `f-1.jpg`, the name of the time `-1`, and `isIn` (here with a 64-bit `Time`) reads
the time `-1` back, not the time the name was made for. -/
theorem isIn_getFilenameAt_narrowed :
    (Sequence.mk ['f'] ['.', 'j', 'p', 'g'] false 1 [⟨-4294967297, -4294967297, 1⟩]).getFilenameAt
        (-4294967297) = ['f', '-', '1', '.', 'j', 'p', 'g'] ∧
    (Sequence.mk ['f'] ['.', 'j', 'p', 'g'] false 1 [⟨-4294967297, -4294967297, 1⟩]).isIn 64
        ((Sequence.mk ['f'] ['.', 'j', 'p', 'g'] false 1
          [⟨-4294967297, -4294967297, 1⟩]).getFilenameAt (-4294967297)) 0 []
      = (true, -1, ['-', '1']) := by
  decide

/-- C2: for the times `-4294967297` and `-2147483648` the name `getFilenameAt` gives is not
the prefix, `-`, the digits of `|t|` and the suffix: the cast `(int) time` turns the first
into `-1`, and `std::abs` has no `int` to give for the second, so the names are `f-1.jpg`
and `f--2147483648.jpg` where `f-4294967297.jpg` and `f-2147483648.jpg` are expected. -/
theorem getFilenameAt_narrowed :
    (Sequence.mk ['f'] ['.', 'j', 'p', 'g'] false 1 []).getFilenameAt (-4294967297)
      = ['f', '-', '1', '.', 'j', 'p', 'g'] ∧
    (Sequence.mk ['f'] ['.', 'j', 'p', 'g'] false 1 []).getFilenameAt (-4294967297)
      ≠ ['f'] ++ ['-'] ++ zeroPad 4294967297 1 ++ ['.', 'j', 'p', 'g'] ∧
    (Sequence.mk ['f'] ['.', 'j', 'p', 'g'] false 1 []).getFilenameAt (-2147483648)
      = ['f', '-', '-', '2', '1', '4', '7', '4', '8', '3', '6', '4', '8', '.', 'j', 'p', 'g'] ∧
    (Sequence.mk ['f'] ['.', 'j', 'p', 'g'] false 1 []).getFilenameAt (-2147483648)
      ≠ ['f'] ++ ['-'] ++ zeroPad 2147483648 1 ++ ['.', 'j', 'p', 'g'] := by
  decide

/-- C6: `extractIsStrictPadding` is true exactly when the padding is positive and one of the
raw frame strings begins with `'0'`; the same holds for the overload on `FileNumbers`, with
the raw string of column `i`. -/
theorem extractIsStrictPadding_iff (timesStr : List Str) (padding : Nat) :
    (extractIsStrictPadding timesStr padding = true ↔
        0 < padding ∧ ∃ s ∈ timesStr, s.head? = some '0') ∧
    (∀ (FileNumbers : Type) (getString : FileNumbers → Nat → Str) (times : List FileNumbers)
        (i : Nat), extractIsStrictPaddingAt getString times i padding = true ↔
          0 < padding ∧ ∃ s ∈ times, (getString s i).head? = some '0') := by
  constructor
  · unfold extractIsStrictPadding
    by_cases h : padding = 0
    · simp [h]
    · simp [h, Nat.pos_of_ne_zero h]
  · intro FileNumbers getString times i
    unfold extractIsStrictPaddingAt
    by_cases h : padding = 0
    · simp [h]
    · simp [h, Nat.pos_of_ne_zero h]

/-- C7: `getStandardPattern` is the prefix, then the mark repeated `max(padding, 1)` times,
then the suffix; the mark is `#` when the padding is positive and `@` when it is 0. -/
theorem getStandardPattern_eq (s : Sequence) :
    s.getStandardPattern =
      s.prefix_ ++ List.replicate (max s.padding_ 1) (if 0 < s.padding_ then '#' else '@')
        ++ s.suffix_ := by
  unfold Sequence.getStandardPattern Sequence.getPatternCharacter Sequence.getPadding
    Sequence.getPrefix Sequence.getSuffix
  by_cases h : s.padding_ = 0
  · simp [h]
  · have h1 : 0 < s.padding_ := Nat.pos_of_ne_zero h
    have h2 : max s.padding_ 1 = s.padding_ := max_eq_left h1
    simp [h, h1, h2]

/-- C8: `getCStylePattern` is prefix, `%0`, the decimal text of the padding, `d` and suffix when
the padding is positive, and prefix, `%d`, suffix when it is 0. -/
theorem getCStylePattern_eq (s : Sequence) :
    s.getCStylePattern =
      if 0 < s.padding_ then
        s.prefix_ ++ ['%', '0'] ++ (Nat.repr s.padding_).toList ++ ['d'] ++ s.suffix_
      else s.prefix_ ++ ['%', 'd'] ++ s.suffix_ := by
  unfold Sequence.getCStylePattern Sequence.getPadding Sequence.getPrefix Sequence.getSuffix
  by_cases h : s.padding_ = 0
  · simp [h]
  · have h1 : 0 < s.padding_ := Nat.pos_of_ne_zero h
    rw [if_pos h, if_pos h1]
    rfl


/-! ## The greatest common divisor of the steps -/

theorem gcdLoop_eq (fuel : Nat) : ∀ a b : Nat, 0 < b → b ≤ fuel → gcdLoop fuel a b = Nat.gcd a b := by
  induction fuel with
  | zero => intro a b h1 h2; omega
  | succ fuel ih =>
    intro a b hb hle
    unfold gcdLoop
    by_cases h : a % b = 0
    · rw [if_pos h]
      exact (Nat.gcd_eq_right (Nat.dvd_of_mod_eq_zero h)).symm
    · rw [if_neg h]
      have hlt : a % b < b := Nat.mod_lt _ hb
      rw [ih b (a % b) (Nat.pos_of_ne_zero h) (by omega)]
      rw [Nat.gcd_comm a b, Nat.gcd_rec b a, Nat.gcd_comm]

theorem greatestCommonDivisor_eq (a b : Nat) :
    greatestCommonDivisor a b = if b = 0 then 0 else Nat.gcd a b := by
  unfold greatestCommonDivisor
  by_cases h : b = 0
  · rw [if_pos h, if_pos h]
  · rw [if_neg h, if_neg h, gcdLoop_eq b a b (Nat.pos_of_ne_zero h) (Nat.le_refl _)]

theorem mem_setInsert (x y : Nat) (l : List Nat) : y ∈ setInsert x l ↔ y = x ∨ y ∈ l := by
  induction l with
  | nil => simp [setInsert]
  | cons z zs ih =>
    unfold setInsert
    by_cases h1 : x < z
    · rw [if_pos h1]; simp
    · rw [if_neg h1]
      by_cases h2 : x = z
      · rw [if_pos h2]; subst h2; simp
      · rw [if_neg h2, List.mem_cons, ih, List.mem_cons]
        tauto

theorem length_setInsert (x : Nat) (l : List Nat) : (setInsert x l).length ≤ l.length + 1 := by
  induction l with
  | nil => simp [setInsert]
  | cons z zs ih =>
    unfold setInsert
    split_ifs <;> simp only [List.length_cons] <;> omega

theorem mem_gcdOfNeighbours (y : Nat) : ∀ (l acc : List Nat),
    y ∈ gcdOfNeighbours l acc ↔
      y ∈ acc ∨ ∃ p ∈ l.zip l.tail, y = greatestCommonDivisor p.2 p.1
  | [], acc => by simp [gcdOfNeighbours]
  | [a], acc => by simp [gcdOfNeighbours]
  | a :: b :: rest, acc => by
    rw [gcdOfNeighbours, mem_gcdOfNeighbours y (b :: rest), mem_setInsert]
    simp only [List.tail_cons, List.zip_cons_cons, List.mem_cons, exists_eq_or_imp]
    tauto

theorem length_gcdOfNeighbours : ∀ (l acc : List Nat),
    (gcdOfNeighbours l acc).length ≤ acc.length + (l.length - 1)
  | [], acc => by simp [gcdOfNeighbours]
  | [a], acc => by simp [gcdOfNeighbours]
  | a :: b :: rest, acc => by
    rw [gcdOfNeighbours]
    have h1 := length_gcdOfNeighbours (b :: rest) (setInsert (greatestCommonDivisor b a) acc)
    have h2 := length_setInsert (greatestCommonDivisor b a) acc
    simp only [List.length_cons] at h1 ⊢
    omega

theorem mem_stepsOfNeighbours (y : Nat) : ∀ (times : List Int) (acc : List Nat),
    y ∈ stepsOfNeighbours times acc ↔
      y ∈ acc ∨ ∃ d ∈ successiveDifferences times, y = toSizeT d
  | [], acc => by simp [stepsOfNeighbours, successiveDifferences]
  | [a], acc => by simp [stepsOfNeighbours, successiveDifferences]
  | a :: b :: rest, acc => by
    rw [stepsOfNeighbours, mem_stepsOfNeighbours y (b :: rest), mem_setInsert,
      successiveDifferences]
    simp only [List.mem_cons, exists_eq_or_imp]
    tauto

theorem dvd_gcdOfList (d : Nat) (l : List Nat) : d ∣ gcdOfList l ↔ ∀ x ∈ l, d ∣ x := by
  induction l with
  | nil => simp [gcdOfList]
  | cons a l ih =>
    have : gcdOfList (a :: l) = Nat.gcd a (gcdOfList l) := rfl
    rw [this, Nat.dvd_gcd_iff, ih]
    simp

theorem mem_zip_tail_left : ∀ (l : List Nat) (x : Nat), 2 ≤ l.length → x ∈ l →
    ∃ p ∈ l.zip l.tail, x = p.1 ∨ x = p.2
  | [], _, h, _ => by simp at h
  | [a], _, h, _ => by simp at h
  | [a, b], x, _, hx => by
    refine ⟨(a, b), by simp, ?_⟩
    simpa using hx
  | a :: b :: c :: rest, x, _, hx => by
    rcases List.mem_cons.mp hx with rfl | hx
    · exact ⟨(x, b), by simp, Or.inl rfl⟩
    · obtain ⟨p, hp, hxp⟩ := mem_zip_tail_left (b :: c :: rest) x (by simp) hx
      exact ⟨p, by simp only [List.tail_cons, List.zip_cons_cons, List.mem_cons] at hp ⊢; tauto,
        hxp⟩

theorem mem_of_mem_zip_tail (l : List Nat) (p : Nat × Nat) (hp : p ∈ l.zip l.tail) :
    p.1 ∈ l ∧ p.2 ∈ l := by
  obtain ⟨a, b⟩ := p
  have := List.of_mem_zip hp
  exact ⟨this.1, List.mem_of_mem_tail this.2⟩

theorem gcdOfSetAux_dvd (fuel : Nat) : ∀ l : List Nat, l ≠ [] → l.length ≤ fuel →
    (∀ x ∈ l, 0 < x) → ∀ d, d ∣ gcdOfSetAux fuel l ↔ ∀ x ∈ l, d ∣ x := by
  induction fuel with
  | zero =>
    intro l hne hlen
    cases l with
    | nil => exact absurd rfl hne
    | cons a l => simp at hlen
  | succ fuel ih =>
    intro l hne hlen hpos d
    match l, hne, hlen, hpos with
    | [x], _, _, _ => simp [gcdOfSetAux]
    | a :: b :: rest, _, hlen, hpos =>
      have hstep : gcdOfSetAux (fuel + 1) (a :: b :: rest)
          = gcdOfSetAux fuel (gcdOfNeighbours (a :: b :: rest) []) := rfl
      have hmem := fun y => mem_gcdOfNeighbours y (a :: b :: rest) []
      have hgpos : ∀ p ∈ (a :: b :: rest).zip (a :: b :: rest).tail,
          greatestCommonDivisor p.2 p.1 = Nat.gcd p.2 p.1 := by
        intro p hp
        have hp1 := hpos p.1 (mem_of_mem_zip_tail _ p hp).1
        rw [greatestCommonDivisor_eq, if_neg (by omega)]
      have hne2 : gcdOfNeighbours (a :: b :: rest) [] ≠ [] := by
        intro h
        have : greatestCommonDivisor b a ∈ gcdOfNeighbours (a :: b :: rest) [] :=
          (hmem _).mpr (Or.inr ⟨(a, b), by simp, rfl⟩)
        rw [h] at this
        simp at this
      have hlen2 : (gcdOfNeighbours (a :: b :: rest) []).length ≤ fuel := by
        have := length_gcdOfNeighbours (a :: b :: rest) []
        simp only [List.length_cons, List.length_nil] at this hlen
        omega
      have hpos2 : ∀ x ∈ gcdOfNeighbours (a :: b :: rest) [], 0 < x := by
        intro x hx
        rcases (hmem x).mp hx with h | ⟨p, hp, rfl⟩
        · simp at h
        · rw [hgpos p hp]
          exact Nat.gcd_pos_of_pos_left _ (hpos p.2 (mem_of_mem_zip_tail _ p hp).2)
      rw [hstep, ih _ hne2 hlen2 hpos2 d]
      constructor
      · intro h x hx
        obtain ⟨p, hp, hxp⟩ := mem_zip_tail_left (a :: b :: rest) x (by simp) hx
        have hd := h _ ((hmem _).mpr (Or.inr ⟨p, hp, rfl⟩))
        rw [hgpos p hp] at hd
        rcases hxp with rfl | rfl
        · exact Nat.dvd_trans hd (Nat.gcd_dvd_right _ _)
        · exact Nat.dvd_trans hd (Nat.gcd_dvd_left _ _)
      · intro h x hx
        rcases (hmem x).mp hx with h0 | ⟨p, hp, rfl⟩
        · simp at h0
        · rw [hgpos p hp]
          have := mem_of_mem_zip_tail _ p hp
          exact Nat.dvd_gcd (h _ this.2) (h _ this.1)

theorem greatestCommonDivisorSet_eq (l : List Nat) (hne : l ≠ []) (hpos : ∀ x ∈ l, 0 < x) :
    greatestCommonDivisorSet l = gcdOfList l := by
  have h := gcdOfSetAux_dvd l.length l hne (Nat.le_refl _) hpos
  apply Nat.dvd_antisymm
  · exact (dvd_gcdOfList _ _).mpr ((h _).mp (Nat.dvd_refl _))
  · exact (h _).mpr ((dvd_gcdOfList _ _).mp (Nat.dvd_refl _))


/-! ## Claims on `extractStep` -/

theorem toSizeT_of_pos {d : Int} (h1 : 0 < d) (h2 : d < 18446744073709551616) :
    toSizeT d = d.toNat := by
  unfold toSizeT SIZE_MOD
  rw [Int.emod_eq_of_lt (by omega) (by omega)]

theorem successiveDifferences_pos : ∀ (times : List Int), List.Chain' (· < ·) times →
    (∀ t ∈ times, IsTime64 t) →
    ∀ d ∈ successiveDifferences times, 0 < d ∧ d < 18446744073709551616
  | [], _, _, d, hd => by simp [successiveDifferences] at hd
  | [a], _, _, d, hd => by simp [successiveDifferences] at hd
  | a :: b :: rest, hc, hr, d, hd => by
    rw [successiveDifferences, List.mem_cons] at hd
    rcases hd with rfl | hd
    · have ha := hr a (by simp)
      have hb := hr b (by simp)
      have hab : a < b := (List.chain'_cons.mp hc).1
      unfold IsTime64 at ha hb
      omega
    · exact successiveDifferences_pos (b :: rest) (List.chain'_cons.mp hc).2
        (fun t ht => hr t (List.mem_cons_of_mem _ ht)) d hd

theorem dvd_sub_of_dvd_successiveDifferences (g : Int) : ∀ (a : Int) (l : List Int),
    (∀ d ∈ successiveDifferences (a :: l), g ∣ d) → ∀ t ∈ a :: l, g ∣ t - a
  | a, [], _, t, ht => by
    simp only [List.mem_singleton] at ht
    rw [ht, sub_self]
    exact dvd_zero g
  | a, b :: rest, h, t, ht => by
    rcases List.mem_cons.mp ht with rfl | ht
    · rw [sub_self]; exact dvd_zero g
    · have h1 : g ∣ b - a := h _ (by simp [successiveDifferences])
      have h2 : g ∣ t - b :=
        dvd_sub_of_dvd_successiveDifferences g b rest
          (fun d hd => h d (by rw [successiveDifferences]; exact List.mem_cons_of_mem _ hd)) t ht
      have : t - a = (t - b) + (b - a) := by ring
      rw [this]
      exact dvd_add h2 h1

theorem extractStep_spec (times : List Int) (hlen : 2 ≤ times.length)
    (hc : List.Chain' (· < ·) times) (hr : ∀ t ∈ times, IsTime64 t) :
    extractStep times = gcdOfList ((successiveDifferences times).map Int.toNat) ∧
    0 < extractStep times := by
  have hpos := successiveDifferences_pos times hc hr
  have hmem : ∀ y, y ∈ stepsOfNeighbours times [] ↔
      y ∈ (successiveDifferences times).map Int.toNat := by
    intro y
    rw [mem_stepsOfNeighbours, List.mem_map]
    constructor
    · rintro (h | ⟨d, hd, rfl⟩)
      · simp at h
      · exact ⟨d, hd, (toSizeT_of_pos (hpos d hd).1 (hpos d hd).2).symm⟩
    · rintro ⟨d, hd, rfl⟩
      exact Or.inr ⟨d, hd, (toSizeT_of_pos (hpos d hd).1 (hpos d hd).2).symm⟩
  have hne : stepsOfNeighbours times [] ≠ [] := by
    match times, hlen with
    | a :: b :: rest, _ =>
      intro h
      have : toSizeT (b - a) ∈ stepsOfNeighbours (a :: b :: rest) [] :=
        (mem_stepsOfNeighbours _ _ _).mpr (Or.inr ⟨b - a, by simp [successiveDifferences], rfl⟩)
      rw [h] at this
      simp at this
  have hp : ∀ x ∈ stepsOfNeighbours times [], 0 < x := by
    intro x hx
    obtain ⟨d, hd, rfl⟩ := List.mem_map.mp ((hmem x).mp hx)
    have := (hpos d hd).1
    omega
  have h1 : extractStep times = gcdOfList (stepsOfNeighbours times []) := by
    unfold extractStep
    rw [if_neg (by omega), greatestCommonDivisorSet_eq _ hne hp]
  have h2 : gcdOfList (stepsOfNeighbours times [])
      = gcdOfList ((successiveDifferences times).map Int.toNat) := by
    apply Nat.dvd_antisymm
    · rw [dvd_gcdOfList]
      intro x hx
      exact (dvd_gcdOfList _ _).mp (Nat.dvd_refl _) x ((hmem x).mpr hx)
    · rw [dvd_gcdOfList]
      intro x hx
      exact (dvd_gcdOfList _ _).mp (Nat.dvd_refl _) x ((hmem x).mp hx)
  refine ⟨h1.trans h2, ?_⟩
  rw [h1]
  obtain ⟨x, hx⟩ := List.exists_mem_of_ne_nil _ hne
  have hdvd := (dvd_gcdOfList _ _).mp (Nat.dvd_refl (gcdOfList (stepsOfNeighbours times []))) x hx
  exact Nat.pos_of_dvd_of_pos hdvd (hp x hx)

/-- C4: for a strictly increasing list of at least two times (values of a signed type of at
most 64 bits) `extractStep` is the greatest common divisor of the successive differences: it
divides each of them and the difference of any two times of the list, `last - first` among
them; for a list of fewer than two times it is 1. -/
theorem extractStep_eq_gcd (times : List Int) :
    (times.length < 2 → extractStep times = 1) ∧
    (2 ≤ times.length → List.Chain' (· < ·) times → (∀ t ∈ times, IsTime64 t) →
      extractStep times = gcdOfList ((successiveDifferences times).map Int.toNat) ∧
      (∀ d ∈ successiveDifferences times, (extractStep times : Int) ∣ d) ∧
      (∀ x ∈ times, ∀ y ∈ times, (extractStep times : Int) ∣ y - x) ∧
      (∀ first last, times.head? = some first → times.getLast? = some last →
        (extractStep times : Int) ∣ last - first)) := by
  constructor
  · intro h
    unfold extractStep
    rw [if_pos (by omega)]
  · intro hlen hc hr
    have hs := (extractStep_spec times hlen hc hr).1
    have hpos := successiveDifferences_pos times hc hr
    have hd : ∀ d ∈ successiveDifferences times, (extractStep times : Int) ∣ d := by
      intro d hd
      have h1 : extractStep times ∣ d.toNat := by
        rw [hs]
        exact (dvd_gcdOfList _ _).mp (Nat.dvd_refl _) _ (List.mem_map.mpr ⟨d, hd, rfl⟩)
      have h2 : ((d.toNat : Nat) : Int) = d := Int.toNat_of_nonneg (le_of_lt (hpos d hd).1)
      rw [← h2]
      exact Int.natCast_dvd_natCast.mpr h1
    have hxy : ∀ x ∈ times, ∀ y ∈ times, (extractStep times : Int) ∣ y - x := by
      match times, hlen, hd with
      | a :: l, _, hd =>
        intro x hx y hy
        have h1 := dvd_sub_of_dvd_successiveDifferences _ a l hd x hx
        have h2 := dvd_sub_of_dvd_successiveDifferences _ a l hd y hy
        have : y - x = (y - a) - (x - a) := by ring
        rw [this]
        exact dvd_sub h2 h1
    refine ⟨hs, hd, hxy, ?_⟩
    intro first last hf hl
    exact hxy first (List.mem_of_mem_head? hf) last (List.mem_of_mem_getLast? hl)

/-- Witness of C4 on the times 0, 6, 10, 22, whose differences 6, 4, 12 have the greatest common
divisor 2. -/
theorem extractStep_eq_gcd_witness :
    extractStep [0, 6, 10, 22] = gcdOfList ((successiveDifferences [0, 6, 10, 22]).map Int.toNat) ∧
    extractStep [0, 6, 10, 22] = 2 ∧ ((extractStep [0, 6, 10, 22] : Nat) : Int) ∣ 22 - 0 :=
  ⟨((extractStep_eq_gcd [0, 6, 10, 22]).2 (by decide) (by simp)
      (by intro t ht; simp only [List.mem_cons, List.mem_singleton, List.not_mem_nil, or_false] at ht
          unfold IsTime64; omega)).1,
    by decide,
    ((extractStep_eq_gcd [0, 6, 10, 22]).2 (by decide) (by simp)
      (by intro t ht; simp only [List.mem_cons, List.mem_singleton, List.not_mem_nil, or_false] at ht
          unfold IsTime64; omega)).2.2.2 0 22 rfl rfl⟩

/-- Counterexample of C5: the times 1, 1 are in ascending order and `extractStep` gives the
step 0 for them. -/
theorem extractStep_equal_neighbours :
    List.Chain' (· ≤ ·) ([1, 1] : List Int) ∧ extractStep [1, 1] = 0 ∧ ¬ 1 ≤ extractStep [1, 1] :=
  ⟨by simp, by decide, by decide⟩

/-- C5, amended: for every list of times in strictly ascending order (values of a signed type
of at most 64 bits) the step `extractStep` returns is at least 1. -/
theorem extractStep_pos (times : List Int) (hc : List.Chain' (· < ·) times)
    (hr : ∀ t ∈ times, IsTime64 t) : 1 ≤ extractStep times := by
  by_cases hlen : 2 ≤ times.length
  · exact (extractStep_spec times hlen hc hr).2
  · unfold extractStep
    rw [if_pos (by omega)]

/-- Witness of the amended C5 on the times 1, 3, 5, 7. -/
theorem extractStep_pos_witness : 1 ≤ extractStep [1, 3, 5, 7] :=
  extractStep_pos [1, 3, 5, 7] (by simp)
    (by intro t ht; simp only [List.mem_cons, List.mem_singleton, List.not_mem_nil, or_false] at ht
        unfold IsTime64; omega)


/-! ## The backtracking matcher -/

theorem runStarLazy_first {α : Type} (a : Char → Bool) (k : Str → Option α) (s : Str) (r : α)
    (h : k s = some r) : runStarLazy a k s = some r := by
  cases s with
  | nil => exact h
  | cons x t => simp only [runStarLazy, h]

theorem runStarLazy_skip {α : Type} (a : Char → Bool) (k : Str → Option α) (rest : Str) :
    ∀ p : Str, (∀ c ∈ p, a c = true) →
      (∀ p₁ c p₂, p = p₁ ++ c :: p₂ → k (c :: p₂ ++ rest) = none) →
      runStarLazy a k (p ++ rest) = runStarLazy a k rest
  | [], _, _ => rfl
  | c :: p, ha, hk => by
    have h1 : k (c :: p ++ rest) = none := hk [] c p rfl
    have h2 : a c = true := ha c (by simp)
    rw [List.cons_append, runStarLazy, ← List.cons_append, h1]
    simp only [h2, if_true]
    exact runStarLazy_skip a k rest p (fun c hc => ha c (List.mem_cons_of_mem _ hc))
      (fun p₁ c₁ p₂ h => hk (c :: p₁) c₁ p₂ (by rw [h]; rfl))

theorem runStarLazy_end {α : Type} (a : Char → Bool) (k : Str → Option α)
    (ha : ∀ c, a c = true) (hk : ∀ t, t ≠ [] → k t = none) :
    ∀ s : Str, runStarLazy a k s = k []
  | [] => rfl
  | x :: t => by
    rw [runStarLazy, hk (x :: t) (by simp)]
    simp only [ha x, if_true]
    exact runStarLazy_end a k ha hk t

theorem runStar_run {α : Type} (a : Char → Bool) (k : Str → Option α) (u : Str) (r : α)
    (hu : ∀ x ∈ u.head?, a x = false) (hk : k u = some r) :
    ∀ ds : Str, (∀ c ∈ ds, a c = true) → runStar a k (ds ++ u) = some r
  | [], _ => by
    cases u with
    | nil => exact hk
    | cons y t =>
      have : a y = false := hu y (by simp)
      simp only [List.nil_append, runStar, this, Bool.false_eq_true, if_false, hk]
  | c :: ds, ha => by
    have h1 : a c = true := ha c (by simp)
    have h2 := runStar_run a k u r hu hk ds (fun c hc => ha c (List.mem_cons_of_mem _ hc))
    rw [List.cons_append, runStar]
    simp only [h1, if_true, h2]

theorem take_append_sub (p rest : Str) :
    (p ++ rest).take ((p ++ rest).length - rest.length) = p := by
  have : (p ++ rest).length - rest.length = p.length := by
    rw [List.length_append]; omega
  rw [this, List.take_left']
  rfl

theorem c_str_eq_self (s : Str) (h : ∀ c ∈ s, c ≠ Char.ofNat 0) : c_str s = s := by
  unfold c_str
  rw [List.takeWhile_eq_self_iff]
  intro c hc
  simpa using h c hc

/-- What ends a match: the whole text is used up. -/
theorem group3_run (s : Str) (c : Captures) :
    (Regex.group 3 (.starLazy .any)).run s c (fun t c => if t = [] then some c else none)
      = some (setCapture c 3 s) := by
  simp only [Regex.run]
  rw [runStarLazy_end CharSet.any.test _ (fun _ => rfl) (fun t ht => by simp [ht])]
  simp

theorem closeTail_run (s : Str) (c : Captures) (hs : ∀ x ∈ s.head?, x ≠ ']') :
    (Regex.cat (.opt (.lit ']')) (.group 3 (.starLazy .any))).run s c
        (fun t c => if t = [] then some c else none) = some (setCapture c 3 s) := by
  cases s with
  | nil =>
    rw [Regex.run]
    simp only [Regex.run]
    exact group3_run [] c
  | cons x t =>
    have hx : x ≠ ']' := hs x (by simp)
    rw [Regex.run]
    simp only [Regex.run, CharSet.test, hx, decide_False, Bool.false_eq_true, if_false]
    exact group3_run (x :: t) c

theorem closeTail_run_bracket (s : Str) (c : Captures) :
    (Regex.cat (.opt (.lit ']')) (.group 3 (.starLazy .any))).run (']' :: s) c
        (fun t c => if t = [] then some c else none) = some (setCapture c 3 s) := by
  have h := group3_run s c
  simp only [Regex.run] at h
  rw [Regex.run]
  simp only [Regex.run, CharSet.test, decide_True, if_true, h]


theorem run_cat {α : Type} (r₁ r₂ : Regex) (s : Str) (c : Captures)
    (k : Str → Captures → Option α) :
    (Regex.cat r₁ r₂).run s c k = r₁.run s c (fun t c₁ => r₂.run t c₁ k) := rfl

theorem run_group {α : Type} (i : Nat) (r : Regex) (s : Str) (c : Captures)
    (k : Str → Captures → Option α) :
    (Regex.group i r).run s c k
      = r.run s c (fun t c₁ => k t (setCapture c₁ i (s.take (s.length - t.length)))) := rfl

theorem run_starLazy {α : Type} (a : CharSet) (s : Str) (c : Captures)
    (k : Str → Captures → Option α) :
    (Regex.starLazy a).run s c k = runStarLazy a.test (fun t => k t c) s := rfl

theorem run_star {α : Type} (a : CharSet) (s : Str) (c : Captures)
    (k : Str → Captures → Option α) :
    (Regex.star a).run s c k = runStar a.test (fun t => k t c) s := rfl

theorem run_alt {α : Type} (r₁ r₂ : Regex) (s : Str) (c : Captures)
    (k : Str → Captures → Option α) :
    (Regex.alt r₁ r₂).run s c k =
      match r₁.run s c k with
      | some r => some r
      | none => r₂.run s c k := rfl

theorem run_plus_cons {α : Type} (a : CharSet) (x : Char) (t : Str) (c : Captures)
    (k : Str → Captures → Option α) :
    (Regex.plus a).run (x :: t) c k
      = if a.test x then runStar a.test (fun u => k u c) t else none := rfl

theorem run_one_cons {α : Type} (a : CharSet) (x : Char) (t : Str) (c : Captures)
    (k : Str → Captures → Option α) :
    (Regex.one a).run (x :: t) c k = if a.test x then k t c else none := rfl

theorem run_opt_skip {α : Type} (a : CharSet) (s : Str) (c : Captures)
    (k : Str → Captures → Option α) (h : ∀ x ∈ s.head?, a.test x = false) :
    (Regex.opt a).run s c k = k s c := by
  cases s with
  | nil => rfl
  | cons x t =>
    have : a.test x = false := h x (by simp)
    simp only [Regex.run, this, Bool.false_eq_true, if_false]

theorem run_opt_take {α : Type} (a : CharSet) (x : Char) (t : Str) (c : Captures)
    (k : Str → Captures → Option α) (r : α) (h : a.test x = true) (hk : k t c = some r) :
    (Regex.opt a).run (x :: t) c k = some r := by
  simp only [Regex.run, h, if_true, hk]

theorem seq_cons (r r₂ : Regex) (rs : List Regex) :
    Regex.seq (r :: r₂ :: rs) = .cat r (Regex.seq (r₂ :: rs)) := rfl

theorem seq_one (r : Regex) : Regex.seq [r] = r := rfl

theorem test_lit (m x : Char) : (CharSet.lit m).test x = decide (x = m) := rfl

/-- The lazy first group takes the shortest prefix after which the rest of the pattern
matches. -/
theorem lazyPrefix_run {α : Type} (R : Regex) (p rest : Str) (c : Captures)
    (k : Str → Captures → Option α) (r : α)
    (hnone : ∀ x ∈ p, ∀ t c₁, R.run (x :: t) c₁ k = none)
    (hsome : R.run rest (setCapture c 1 p) k = some r) :
    (Regex.cat (.group 1 (.starLazy .any)) R).run (p ++ rest) c k = some r := by
  rw [run_cat, run_group, run_starLazy, runStarLazy_skip]
  · apply runStarLazy_first
    simp only [take_append_sub]
    exact hsome
  · intro x _; rfl
  · intro p₁ x p₂ hpx
    exact hnone x (by rw [hpx]; simp) _ _

theorem marks_run {α : Type} (m : Char) (hm : m = '#' ∨ m = '@') (n : Nat) (u : Str)
    (c : Captures) (k : Str → Captures → Option α) (r : α) (hu : ∀ x ∈ u.head?, x ≠ m)
    (hk : k u (setCapture c 2 (List.replicate (n + 1) m)) = some r) :
    (Regex.group 2 (.alt (.plus (.lit '#')) (.plus (.lit '@')))).run
      (List.replicate (n + 1) m ++ u) c k = some r := by
  have hs : List.replicate (n + 1) m ++ u = m :: (List.replicate n m ++ u) := by
    simp [List.replicate_succ]
  have htake : (m :: (List.replicate n m ++ u)).take
      ((m :: (List.replicate n m ++ u)).length - u.length) = List.replicate (n + 1) m := by
    rw [← hs]; exact take_append_sub _ u
  have hstar := runStar_run (CharSet.lit m).test
      (fun t => k t (setCapture c 2 ((m :: (List.replicate n m ++ u)).take
        ((m :: (List.replicate n m ++ u)).length - t.length)))) u r
      (fun x hx => by rw [test_lit]; simpa using hu x hx)
      (by simp only [htake]; exact hk)
      (List.replicate n m)
      (fun x hx => by rw [test_lit]; simpa using (List.mem_replicate.mp hx).2)
  rw [hs, run_group, run_alt, run_plus_cons, run_plus_cons]
  rcases hm with rfl | rfl
  · have h1 : (CharSet.lit '#').test '#' = true := rfl
    simp only [h1, if_true, hstar]
  · have h1 : (CharSet.lit '#').test '@' = false := by decide
    have h2 : (CharSet.lit '@').test '@' = true := rfl
    simp only [h1, h2, Bool.false_eq_true, if_false, if_true, hstar]

theorem standardTail_none {α : Type} (x : Char) (t : Str) (c : Captures)
    (k : Str → Captures → Option α) (h1 : x ≠ '[') (h2 : x ≠ '#') (h3 : x ≠ '@') :
    (Regex.seq [.opt (.lit '['), .group 2 (.alt (.plus (.lit '#')) (.plus (.lit '@'))),
      .opt (.lit ']'), .group 3 (.starLazy .any)]).run (x :: t) c k = none := by
  rw [seq_cons, run_cat, run_opt_skip _ _ _ _ (fun y hy => by
    simp only [List.head?_cons, Option.mem_def, Option.some.injEq] at hy
    rw [test_lit, ← hy]; simpa using h1)]
  rw [seq_cons, run_cat, run_group, run_alt, run_plus_cons, run_plus_cons]
  simp only [test_lit, h2, h3, decide_False, Bool.false_eq_true, if_false]

/-- How `regexPatternStandard` matches a prefix, a run of marks (in brackets or not) and a
suffix. -/
theorem regex_match_standard (p s : Str) (m : Char) (n : Nat) (wrapped : Bool)
    (hm : m = '#' ∨ m = '@') (hp : ∀ x ∈ p, x ≠ '[' ∧ x ≠ '#' ∧ x ≠ '@')
    (hs : ∀ x ∈ s.head?, x ≠ ']' ∧ x ≠ m) :
    regex_match
      (p ++ ((if wrapped then ['['] else []) ++ (List.replicate (n + 1) m
        ++ ((if wrapped then [']'] else []) ++ s)))) regexPatternStandard
      = some (setCapture (setCapture (setCapture (fun _ => []) 1 p) 2
          (List.replicate (n + 1) m)) 3 s) := by
  have hm2 : m ≠ '[' ∧ m ≠ ']' := by
    rcases hm with rfl | rfl <;> exact ⟨by decide, by decide⟩
  have hmarks : ∀ u : Str, (∀ x ∈ u.head?, x ≠ m) →
      (Regex.cat (.opt (.lit ']')) (.group 3 (.starLazy .any))).run u
          (setCapture (setCapture (fun _ => []) 1 p) 2 (List.replicate (n + 1) m))
          (fun t c => if t = [] then some c else none)
        = some (setCapture (setCapture (setCapture (fun _ => []) 1 p) 2
            (List.replicate (n + 1) m)) 3 s) →
      (Regex.seq [.group 2 (.alt (.plus (.lit '#')) (.plus (.lit '@'))),
          .opt (.lit ']'), .group 3 (.starLazy .any)]).run (List.replicate (n + 1) m ++ u)
          (setCapture (fun _ => []) 1 p) (fun t c => if t = [] then some c else none)
        = some (setCapture (setCapture (setCapture (fun _ => []) 1 p) 2
            (List.replicate (n + 1) m)) 3 s) := by
    intro u hu h
    rw [seq_cons, run_cat]
    exact marks_run m hm n u _ _ _ hu h
  unfold regex_match regexPatternStandard
  rw [seq_cons]
  apply lazyPrefix_run
  · intro x hx t c₁
    exact standardTail_none x t c₁ _ (hp x hx).1 (hp x hx).2.1 (hp x hx).2.2
  · rw [seq_cons, run_cat]
    cases wrapped with
    | false =>
      simp only [Bool.false_eq_true, if_false, List.nil_append]
      rw [run_opt_skip]
      · exact hmarks s (fun x hx => (hs x hx).2) (closeTail_run s _ (fun x hx => (hs x hx).1))
      · intro x hx
        have : x = m := by
          simp only [List.replicate_succ, List.cons_append, List.head?_cons, Option.mem_def,
            Option.some.injEq] at hx
          exact hx.symm
        rw [test_lit, this]
        simpa using hm2.1
    | true =>
      simp only [if_true, List.singleton_append]
      apply run_opt_take (.lit '[') '[' _ _ _ _ rfl
      apply hmarks (']' :: s)
      · intro x hx
        simp only [List.head?_cons, Option.mem_def, Option.some.injEq] at hx
        rw [← hx]; exact fun h => hm2.2 h.symm
      · exact closeTail_run_bracket s _


/-- The Standard branch of `retrieveInfosFromPattern` on a prefix, marks and a suffix. -/
theorem standardBranch_returns (p s : Str) (m : Char) (n : Nat) (wrapped : Bool)
    (accept : Nat) (out : PatternInfos)
    (hacc : accept &&& ePatternStandard ≠ 0) (hn : 1 ≤ n) (hm : m = '#' ∨ m = '@')
    (hp : ∀ x ∈ p, x ≠ '#' ∧ x ≠ '@' ∧ x ≠ '[' ∧ x ≠ ']' ∧ x ≠ Char.ofNat 0)
    (hs : ∀ x ∈ s, x ≠ '#' ∧ x ≠ '@' ∧ x ≠ '[' ∧ x ≠ ']' ∧ x ≠ Char.ofNat 0) :
    retrieveInfosFromPattern
        (p ++ ((if wrapped then ['['] else []) ++ (List.replicate n m
          ++ ((if wrapped then [']'] else []) ++ s)))) accept out
      = .returned (true, ⟨p, s, n, decide (m = '#')⟩) := by
  obtain ⟨n, rfl⟩ : ∃ k, n = k + 1 := ⟨n - 1, by omega⟩
  have hm0 : m ≠ Char.ofNat 0 := by
    rcases hm with rfl | rfl <;> decide
  have hc : c_str (p ++ ((if wrapped then ['['] else []) ++ (List.replicate (n + 1) m
      ++ ((if wrapped then [']'] else []) ++ s))))
      = p ++ ((if wrapped then ['['] else []) ++ (List.replicate (n + 1) m
        ++ ((if wrapped then [']'] else []) ++ s))) := by
    apply c_str_eq_self
    intro x hx
    simp only [List.mem_append, List.mem_replicate] at hx
    rcases hx with hx | hx | hx | hx | hx
    · exact (hp x hx).2.2.2.2
    · cases wrapped
      · simp at hx
      · simp only [if_true, List.mem_singleton] at hx
        rw [hx]; decide
    · rw [hx.2]; exact hm0
    · cases wrapped
      · simp at hx
      · simp only [if_true, List.mem_singleton] at hx
        rw [hx]; decide
    · exact (hs x hx).2.2.2.2
  have hmatch := regex_match_standard p s m n wrapped hm
    (fun x hx => ⟨(hp x hx).2.2.1, (hp x hx).1, (hp x hx).2.1⟩)
    (fun x hx => by
      have hx2 := hs x (List.mem_of_mem_head? hx)
      refine ⟨hx2.2.2.2.1, ?_⟩
      rcases hm with rfl | rfl
      · exact hx2.1
      · exact hx2.2.1)
  unfold retrieveInfosFromPattern
  simp only [hacc, ne_eq, not_false_eq_true, if_true, hc, hmatch]
  simp [setCapture, List.replicate_succ]

/-! ## Claims on `retrieveInfosFromPattern` -/

/-- Counterexample of C9: a prefix that holds the NUL character has none of `#`, `@`, `[`,
`]`, and `retrieveInfosFromPattern` fails on it followed by one `#`: the regex functions read
`c_str()`, which ends at the NUL. -/
theorem retrieveInfosFromPattern_nul :
    (∀ x ∈ [Char.ofNat 0], x ≠ '#' ∧ x ≠ '@' ∧ x ≠ '[' ∧ x ≠ ']') ∧
    retrieveInfosFromPattern ([Char.ofNat 0] ++ List.replicate 1 '#' ++ []) ePatternStandard
        ⟨[], [], 0, false⟩ = .returned (false, ⟨[], [], 0, false⟩) := by
  decide

/-- C9, amended: for every prefix `p` and suffix `s` with none of `#`, `@`, `[`, `]` and no NUL
character, and every `n ≥ 1`, `retrieveInfosFromPattern` with the Standard flavor accepted
succeeds on `p`, `n` marks (all `#` or all `@`, in one pair of brackets or not) and `s`, and
gives the prefix `p`, the suffix `s`, the padding `n` and a strict padding exactly when the
mark is `#`. -/
theorem retrieveInfosFromPattern_standard (p s : Str) (m : Char) (n : Nat) (wrapped : Bool)
    (accept : Nat) (out : PatternInfos)
    (hacc : accept &&& ePatternStandard ≠ 0) (hn : 1 ≤ n) (hm : m = '#' ∨ m = '@')
    (hp : ∀ x ∈ p, x ≠ '#' ∧ x ≠ '@' ∧ x ≠ '[' ∧ x ≠ ']' ∧ x ≠ Char.ofNat 0)
    (hs : ∀ x ∈ s, x ≠ '#' ∧ x ≠ '@' ∧ x ≠ '[' ∧ x ≠ ']' ∧ x ≠ Char.ofNat 0) :
    retrieveInfosFromPattern
        (p ++ ((if wrapped then ['['] else []) ++ (List.replicate n m
          ++ ((if wrapped then [']'] else []) ++ s)))) accept out
      = .returned (true, ⟨p, s, n, decide (m = '#')⟩) :=
  standardBranch_returns p s m n wrapped accept out hacc hn hm hp hs

/-- Witness of the amended C9 on `img.####.jpg`. -/
theorem retrieveInfosFromPattern_standard_witness :
    retrieveInfosFromPattern
        (['i', 'm', 'g', '.'] ++ ((if false then ['['] else []) ++ (List.replicate 4 '#'
          ++ ((if false then [']'] else []) ++ ['.', 'j', 'p', 'g'])))) ePatternDefault
        ⟨[], [], 0, false⟩
      = .returned (true, ⟨['i', 'm', 'g', '.'], ['.', 'j', 'p', 'g'], 4, decide ('#' = '#')⟩) :=
  retrieveInfosFromPattern_standard ['i', 'm', 'g', '.'] ['.', 'j', 'p', 'g'] '#' 4 false
    ePatternDefault ⟨[], [], 0, false⟩ (by decide) (by decide) (Or.inl rfl) (by decide)
    (by decide)


/-- The lazy first group, when the rest of the pattern fails at every place inside the
prefix. -/
theorem lazyPrefix_run_split {α : Type} (R : Regex) (p rest : Str) (c : Captures)
    (k : Str → Captures → Option α) (r : α)
    (hnone : ∀ p₁ x p₂, p = p₁ ++ x :: p₂ → ∀ c₁, R.run (x :: p₂ ++ rest) c₁ k = none)
    (hsome : R.run rest (setCapture c 1 p) k = some r) :
    (Regex.cat (.group 1 (.starLazy .any)) R).run (p ++ rest) c k = some r := by
  rw [run_cat, run_group, run_starLazy, runStarLazy_skip]
  · apply runStarLazy_first
    simp only [take_append_sub]
    exact hsome
  · intro x _; rfl
  · intro p₁ x p₂ hpx
    exact hnone p₁ x p₂ hpx _

theorem isDigit_d : isDigit 'd' = false := by decide

theorem cstyleTail_run (digits s : Str) (c : Captures) (hd : ∀ x ∈ digits, isDigit x = true)
    (hs : ∀ x ∈ s.head?, x ≠ ']') :
    (Regex.seq [.one (.lit '%'), .group 2 (.star .digit), .one (.lit 'd'), .opt (.lit ']'),
        .group 3 (.starLazy .any)]).run ('%' :: (digits ++ 'd' :: s)) c
        (fun t c => if t = [] then some c else none)
      = some (setCapture (setCapture c 2 digits) 3 s) := by
  rw [seq_cons, run_cat, run_one_cons]
  have h1 : (CharSet.lit '%').test '%' = true := rfl
  rw [if_pos h1, seq_cons, run_cat, run_group, run_star]
  apply runStar_run
  · intro x hx
    simp only [List.head?_cons, Option.mem_def, Option.some.injEq] at hx
    rw [← hx]
    exact isDigit_d
  · simp only [take_append_sub]
    rw [seq_cons, run_cat, run_one_cons]
    have h2 : (CharSet.lit 'd').test 'd' = true := rfl
    rw [if_pos h2]
    exact closeTail_run s _ hs
  · exact hd

theorem cstyleTail_none {α : Type} (x : Char) (t : Str) (c : Captures)
    (k : Str → Captures → Option α) (hx : x ≠ '%') (ht : x = '[' → ∀ y ∈ t.head?, y ≠ '%')
    (ht2 : x = '[' → t ≠ []) :
    (Regex.seq [.opt (.lit '['), .one (.lit '%'), .group 2 (.star .digit), .one (.lit 'd'),
        .opt (.lit ']'), .group 3 (.starLazy .any)]).run (x :: t) c k = none := by
  have hfail : (Regex.seq [.one (.lit '%'), .group 2 (.star .digit), .one (.lit 'd'),
      .opt (.lit ']'), .group 3 (.starLazy .any)]).run (x :: t) c k = none := by
    rw [seq_cons, run_cat, run_one_cons, test_lit]
    simp only [hx, decide_False, Bool.false_eq_true, if_false]
  rw [seq_cons, run_cat]
  by_cases hb : x = '['
  · cases t with
    | nil => exact absurd rfl (ht2 hb)
    | cons y t₂ =>
      have hy : y ≠ '%' := ht hb y (by simp)
      have hfail2 : (Regex.seq [.one (.lit '%'), .group 2 (.star .digit), .one (.lit 'd'),
          .opt (.lit ']'), .group 3 (.starLazy .any)]).run (y :: t₂) c k = none := by
        rw [seq_cons, run_cat, run_one_cons, test_lit]
        simp only [hy, decide_False, Bool.false_eq_true, if_false]
      simp only [Regex.run, test_lit, hb, decide_True, if_true]
      rw [hb] at hfail
      simp only [Regex.run, test_lit] at hfail hfail2
      simp only [hfail2, hfail]
  · rw [run_opt_skip _ _ _ _ (fun y hy => by
      simp only [List.head?_cons, Option.mem_def, Option.some.injEq] at hy
      rw [test_lit, ← hy]; simpa using hb)]
    exact hfail

/-- How `regexPatternCStyle` matches a prefix, `%`, digits, `d` and a suffix. -/
theorem regex_match_cstyle (p digits s : Str) (hp : ∀ x ∈ p, x ≠ '%')
    (hlast : p.getLast? ≠ some '[') (hd : ∀ x ∈ digits, isDigit x = true)
    (hs : ∀ x ∈ s.head?, x ≠ ']') :
    regex_match (p ++ '%' :: (digits ++ 'd' :: s)) regexPatternCStyle
      = some (setCapture (setCapture (setCapture (fun _ => []) 1 p) 2 digits) 3 s) := by
  unfold regex_match regexPatternCStyle
  rw [seq_cons]
  apply lazyPrefix_run_split
  · intro p₁ x p₂ hpx c₁
    apply cstyleTail_none
    · exact hp x (by rw [hpx]; simp)
    · intro _ y hy
      cases p₂ with
      | nil =>
        simp only [List.nil_append, List.head?_cons, Option.mem_def, Option.some.injEq] at hy
        exact absurd (by rw [hpx]; simp [*]) hlast
      | cons z p₃ =>
        have hzy : z = y := by simpa using hy
        rw [← hzy]
        exact hp z (by rw [hpx]; simp)
    · intro hb h
      cases p₂ with
      | nil => exact absurd (by rw [hpx, hb]; simp) hlast
      | cons z p₃ => simp at h
  · rw [seq_cons, run_cat, run_opt_skip _ _ _ _ (fun y hy => by
      simp only [List.head?_cons, Option.mem_def, Option.some.injEq] at hy
      rw [test_lit, ← hy]; decide)]
    exact cstyleTail_run digits s _ hd hs


theorem lexicalCastSize_digits (digits : Str) (hne : digits ≠ [])
    (hd : ∀ x ∈ digits, isDigit x = true) (hfit : digitsValue digits < SIZE_MOD) :
    lexicalCastSize digits = some (digitsValue digits) := by
  cases digits with
  | nil => exact absurd rfl hne
  | cons c rest =>
    obtain ⟨hm, hp⟩ := isDigit_ne_sign (hd c (by simp))
    have hl : lcastUnsigned (c :: rest) = some (digitsValue (c :: rest)) :=
      lcastUnsigned_eq_some.mpr ⟨hne, hd, rfl⟩
    simp only [lexicalCastSize, hm, hp, or_self, if_false, hl, hfit, if_true]

/-- Counterexample of C10: `myimage[%04d].jpg` is the C-style pattern made of the prefix
`myimage[`, `%`, the digits `04`, `d` and the suffix `].jpg`, it is not a Standard pattern,
and `retrieveInfosFromPattern` gives the prefix `myimage` and the suffix `.jpg` for it: the
brackets around the number are left out. -/
theorem retrieveInfosFromPattern_brackets :
    (regex_match (c_str (['m', 'y', 'i', 'm', 'a', 'g', 'e', '['] ++ ['%'] ++ ['0', '4'] ++ ['d']
        ++ [']', '.', 'j', 'p', 'g'])) regexPatternStandard).isNone = true ∧
    retrieveInfosFromPattern (['m', 'y', 'i', 'm', 'a', 'g', 'e', '['] ++ ['%'] ++ ['0', '4']
        ++ ['d'] ++ [']', '.', 'j', 'p', 'g']) ePatternDefault ⟨[], [], 0, false⟩
      = .returned (true, ⟨['m', 'y', 'i', 'm', 'a', 'g', 'e'], ['.', 'j', 'p', 'g'], 4, false⟩) ∧
    retrieveInfosFromPattern (['m', 'y', 'i', 'm', 'a', 'g', 'e', '['] ++ ['%'] ++ ['0', '4']
        ++ ['d'] ++ [']', '.', 'j', 'p', 'g']) ePatternDefault ⟨[], [], 0, false⟩
      ≠ .returned (true, ⟨['m', 'y', 'i', 'm', 'a', 'g', 'e', '['], [']', '.', 'j', 'p', 'g'], 4,
          false⟩) := by
  decide

/-- C10, amended: take a pattern `p`, `%`, digits, `d`, `s` that is not a Standard pattern,
where `p` holds no `%` and does not end with `[`, `s` does not begin with `]`, neither holds
a NUL character, and the number `N` the digits denote fits a `std::size_t`.  With the C-style
flavor accepted, `retrieveInfosFromPattern` gives the prefix `p`, the suffix `s`, the padding
`N` (0 when there is no digit) and no strict padding. -/
theorem retrieveInfosFromPattern_cstyle (p digits s : Str) (accept : Nat) (out : PatternInfos)
    (hacc : accept &&& ePatternCStyle ≠ 0)
    (hstd : (regex_match (c_str (p ++ '%' :: (digits ++ 'd' :: s)))
      regexPatternStandard).isNone = true)
    (hp : ∀ x ∈ p, x ≠ '%' ∧ x ≠ Char.ofNat 0) (hlast : p.getLast? ≠ some '[')
    (hd : ∀ x ∈ digits, isDigit x = true) (hfit : digitsValue digits < SIZE_MOD)
    (hs : ∀ x ∈ s, x ≠ Char.ofNat 0) (hhead : s.head? ≠ some ']') :
    retrieveInfosFromPattern (p ++ '%' :: (digits ++ 'd' :: s)) accept out
      = .returned (true, ⟨p, s, digitsValue digits, false⟩) ∧
    (digits = [] → digitsValue digits = 0) := by
  refine ⟨?_, fun h => by rw [h]; rfl⟩
  have hc : c_str (p ++ '%' :: (digits ++ 'd' :: s)) = p ++ '%' :: (digits ++ 'd' :: s) := by
    apply c_str_eq_self
    intro x hx
    simp only [List.mem_append, List.mem_cons] at hx
    rcases hx with hx | hx | hx | hx | hx
    · exact (hp x hx).2
    · rw [hx]; decide
    · intro h0
      have := hd x hx
      rw [h0] at this
      exact absurd this (by decide)
    · rw [hx]; decide
    · exact hs x hx
  have hmatch := regex_match_cstyle p digits s (fun x hx => (hp x hx).1) hlast hd
    (fun x hx => by
      intro h
      rw [h] at hx
      exact hhead hx)
  have h1 : (if accept &&& ePatternStandard ≠ 0
      then regex_match (c_str (p ++ '%' :: (digits ++ 'd' :: s))) regexPatternStandard
      else none) = none := by
    split
    · exact Option.isNone_iff_eq_none.mp hstd
    · rfl
  unfold retrieveInfosFromPattern
  simp only [h1, hacc, ne_eq, not_false_eq_true, if_true]
  rw [hc] at *
  simp only [hmatch]
  have h2 : setCapture (setCapture (setCapture (fun _ => []) 1 p) 2 digits) 3 s 2 = digits := by
    simp [setCapture]
  have h3 : setCapture (setCapture (setCapture (fun _ => []) 1 p) 2 digits) 3 s 1 = p := by
    simp [setCapture]
  have h4 : setCapture (setCapture (setCapture (fun _ => []) 1 p) 2 digits) 3 s 3 = s := by
    simp [setCapture]
  simp only [h2, h3, h4]
  by_cases hn : digits = []
  · subst hn
    simp [digitsValue]
  · have hlen : digits.length ≠ 0 := by
      intro h; exact hn (List.length_eq_zero.mp h)
    simp only [hlen, if_false, lexicalCastSize_digits digits hn hd hfit]

/-- Witness of the amended C10 on `img.%04d.jpg`. -/
theorem retrieveInfosFromPattern_cstyle_witness :
    retrieveInfosFromPattern (['i', 'm', 'g', '.'] ++ '%' :: (['0', '4'] ++ 'd' :: ['.', 'j', 'p', 'g']))
        ePatternDefault ⟨[], [], 0, false⟩
      = .returned (true, ⟨['i', 'm', 'g', '.'], ['.', 'j', 'p', 'g'], digitsValue ['0', '4'], false⟩)
    ∧ digitsValue ['0', '4'] = 4 :=
  ⟨(retrieveInfosFromPattern_cstyle ['i', 'm', 'g', '.'] ['0', '4'] ['.', 'j', 'p', 'g']
      ePatternDefault ⟨[], [], 0, false⟩ (by decide) (by decide) (by decide) (by decide)
      (by decide) (by decide) (by decide) (by decide)).1, by decide⟩


/-! ## Claims on pattern recognition -/

/-- C11: on `f-0012.jpg` with `ePatternAll` the signed-frame flavor captures `-0012` and the
padding `retrieveInfosFromPattern` reports is 5, the length of the capture with its sign,
not the 4 digits of the number. -/
theorem retrieveInfosFromPattern_signed_padding :
    retrieveInfosFromPattern ['f', '-', '0', '0', '1', '2', '.', 'j', 'p', 'g'] ePatternAll
        ⟨[], [], 0, false⟩
      = .returned (true, ⟨['f'], ['.', 'j', 'p', 'g'], 5, false⟩) ∧
    getPaddingFromStringNumber ['-', '0', '0', '1', '2'] = 4 := by
  decide

/-- C13: with all four flavors accepted, `retrieveInfosFromPattern` on `f-0012.jpg` leaves the
sign in the prefix (`f-`, padding 4): it tries the positive-frame flavor before the
signed-frame one, while `checkPattern` names the signed-frame flavor for the same text. -/
theorem retrieveInfosFromPattern_frame_first :
    retrieveInfosFromPattern ['f', '-', '0', '0', '1', '2', '.', 'j', 'p', 'g']
        (ePatternStandard + ePatternCStyle + ePatternFrame + ePatternFrameNeg) ⟨[], [], 0, false⟩
      = .returned (true, ⟨['f', '-'], ['.', 'j', 'p', 'g'], 4, false⟩) ∧
    checkPattern ['f', '-', '0', '0', '1', '2', '.', 'j', 'p', 'g'] 1 1 = ePatternFrameNeg := by
  decide

/-- C14: on `seq1shot04myimage.0123.jpg` with the Frame flavor `retrieveInfosFromPattern`
captures the first run of digits: prefix `seq`, padding 1, suffix `shot04myimage.0123.jpg`,
not the run `0123` between the dots. -/
theorem retrieveInfosFromPattern_first_run :
    retrieveInfosFromPattern
        ['s', 'e', 'q', '1', 's', 'h', 'o', 't', '0', '4', 'm', 'y', 'i', 'm', 'a', 'g', 'e', '.',
          '0', '1', '2', '3', '.', 'j', 'p', 'g'] ePatternFrame ⟨[], [], 0, false⟩
      = .returned (true, ⟨['s', 'e', 'q'],
          ['s', 'h', 'o', 't', '0', '4', 'm', 'y', 'i', 'm', 'a', 'g', 'e', '.', '0', '1', '2', '3',
            '.', 'j', 'p', 'g'], 1, false⟩) := by
  decide

/-- C15: on `%99999999999999999999d`, a C-style pattern whose width does not fit a
`std::size_t`, `retrieveInfosFromPattern` and `initFromPattern` end with the exception of
`lexical_cast`; they return neither true nor false. -/
theorem retrieveInfosFromPattern_throws :
    retrieveInfosFromPattern
        (['%'] ++ List.replicate 20 '9' ++ ['d']) ePatternDefault ⟨[], [], 0, false⟩ = .thrown ∧
    (Sequence.mk [] [] false 0 []).initFromPattern (['%'] ++ List.replicate 20 '9' ++ ['d'])
        1 10 1 ePatternDefault = .thrown := by
  decide

/-- A false result of `retrieveInfosFromPattern` or `initFromPattern` comes with the state
handed in. -/
theorem falseResult_unchanged (pattern : Str) (accept : Nat) :
    (∀ out out₁, retrieveInfosFromPattern pattern accept out = .returned (false, out₁) →
      out₁ = out) ∧
    (∀ (s s₁ : Sequence) (firstTime lastTime step : Int),
      s.initFromPattern pattern firstTime lastTime step accept = .returned (false, s₁) →
        s₁ = s) := by
  have key : ∀ out out₁, retrieveInfosFromPattern pattern accept out = .returned (false, out₁) →
      out₁ = out := by
    intro out out₁ h
    unfold retrieveInfosFromPattern at h
    simp only at h
    split at h
    · simp at h
    · split at h
      · split at h
        · simp at h
        · split at h
          · simp at h
          · simp at h
      · split at h
        · simp at h
        · split at h
          · simp at h
          · simp only [Outcome.returned.injEq, Prod.mk.injEq, true_and] at h
            exact h.symm
  refine ⟨key, ?_⟩
  intro s s₁ firstTime lastTime step h
  unfold Sequence.initFromPattern at h
  split at h
  · simp at h
  · rename_i ok i hr
    by_cases hok : ok = true
    · simp [hok] at h
    · have hok2 : ok = false := by simpa using hok
      subst hok2
      have hi := key _ _ hr
      simp only [Bool.false_eq_true, if_false, Outcome.returned.injEq, Prod.mk.injEq,
        true_and] at h
      rw [← h, hi]

/-- When no accepted flavor matches, `retrieveInfosFromPattern` and `initFromPattern` return
false with the state handed in. -/
theorem noFlavor_returns_false (pattern : Str) (accept : Nat)
    (h : ∀ f ∈ [(ePatternStandard, regexPatternStandard), (ePatternCStyle, regexPatternCStyle),
        (ePatternFrame, regexPatternFrame), (ePatternFrameNeg, regexPatternFrameNeg)],
      accept &&& f.1 ≠ 0 → (regex_match (c_str pattern) f.2).isNone = true) :
    (∀ out, retrieveInfosFromPattern pattern accept out = .returned (false, out)) ∧
    (∀ (s : Sequence) (firstTime lastTime step : Int),
      s.initFromPattern pattern firstTime lastTime step accept = .returned (false, s)) := by
  have e : ∀ f ∈ [(ePatternStandard, regexPatternStandard), (ePatternCStyle, regexPatternCStyle),
        (ePatternFrame, regexPatternFrame), (ePatternFrameNeg, regexPatternFrameNeg)],
      (if accept &&& f.1 ≠ 0 then regex_match (c_str pattern) f.2 else none) = none := by
    intro f hf
    by_cases ha : accept &&& f.1 ≠ 0
    · rw [if_pos ha]
      exact Option.isNone_iff_eq_none.mp (h f hf ha)
    · rw [if_neg ha]
  have e1 := e (ePatternStandard, regexPatternStandard) (by simp)
  have e2 := e (ePatternCStyle, regexPatternCStyle) (by simp)
  have e3 := e (ePatternFrame, regexPatternFrame) (by simp)
  have e4 := e (ePatternFrameNeg, regexPatternFrameNeg) (by simp)
  have key : ∀ out, retrieveInfosFromPattern pattern accept out = .returned (false, out) := by
    intro out
    unfold retrieveInfosFromPattern
    simp only [e1, e2, e3, e4]
  refine ⟨key, ?_⟩
  intro s firstTime lastTime step
  unfold Sequence.initFromPattern
  rw [key]
  cases s
  rfl

/-- C16: when the pattern matches none of the accepted flavors, `retrieveInfosFromPattern`
returns false with its four output parameters as they were and `initFromPattern` returns false
with the sequence (prefix, suffix, padding, strictPadding, ranges) as it was; and whenever one
of them returns false, the outputs or the sequence hold the values they had before the call. -/
theorem initFromPattern_false_unchanged (pattern : Str) (accept : Nat) :
    ((∀ f ∈ [(ePatternStandard, regexPatternStandard), (ePatternCStyle, regexPatternCStyle),
          (ePatternFrame, regexPatternFrame), (ePatternFrameNeg, regexPatternFrameNeg)],
        accept &&& f.1 ≠ 0 → (regex_match (c_str pattern) f.2).isNone = true) →
      (∀ out, retrieveInfosFromPattern pattern accept out = .returned (false, out)) ∧
      (∀ (s : Sequence) (firstTime lastTime step : Int),
        s.initFromPattern pattern firstTime lastTime step accept = .returned (false, s))) ∧
    (∀ out out₁, retrieveInfosFromPattern pattern accept out = .returned (false, out₁) →
      out₁ = out) ∧
    (∀ (s s₁ : Sequence) (firstTime lastTime step : Int),
      s.initFromPattern pattern firstTime lastTime step accept = .returned (false, s₁) →
        s₁ = s) :=
  ⟨noFlavor_returns_false pattern accept, falseResult_unchanged pattern accept⟩

/-- Witness of C16 on `abc.jpg`, which is of no flavor: both calls return false, with the
outputs and the sequence handed in. -/
theorem initFromPattern_false_unchanged_witness :
    (∀ f ∈ [(ePatternStandard, regexPatternStandard), (ePatternCStyle, regexPatternCStyle),
        (ePatternFrame, regexPatternFrame), (ePatternFrameNeg, regexPatternFrameNeg)],
      ePatternDefault &&& f.1 ≠ 0 →
        (regex_match (c_str ['a', 'b', 'c', '.', 'j', 'p', 'g']) f.2).isNone = true) ∧
    ((∀ out, retrieveInfosFromPattern ['a', 'b', 'c', '.', 'j', 'p', 'g'] ePatternDefault out
        = .returned (false, out)) ∧
      (∀ (s : Sequence) (firstTime lastTime step : Int),
        s.initFromPattern ['a', 'b', 'c', '.', 'j', 'p', 'g'] firstTime lastTime step
          ePatternDefault = .returned (false, s))) :=
  ⟨by decide,
    (initFromPattern_false_unchanged ['a', 'b', 'c', '.', 'j', 'p', 'g'] ePatternDefault).1
      (by decide)⟩

/-! ## Claims on membership, ranges and equality -/

/-- C17: for the sequence `f` .. `.jpg` and the file name `fx.jpg`, whose middle segment is not
an integer, `isIn` returns false without an error and keeps the time, but the text handed in
(`old`) is replaced by the middle segment `x`. -/
theorem isIn_false_overwrites_timeStr :
    (Sequence.mk ['f'] ['.', 'j', 'p', 'g'] false 1 [⟨1, 10, 1⟩]).isIn 64
        ['f', 'x', '.', 'j', 'p', 'g'] 7 ['o', 'l', 'd'] = (false, 7, ['x']) := by
  decide

/-- C18: `hasMissingFile` is true exactly when the number of ranges is not 1 or the first range
has a step other than 1. -/
theorem hasMissingFile_iff (s : Sequence) :
    s.hasMissingFile = true ↔
      s.ranges_.length ≠ 1 ∨ ∃ r, s.ranges_.head? = some r ∧ r.step ≠ 1 := by
  unfold Sequence.hasMissingFile
  cases h : s.ranges_ with
  | nil => simp
  | cons r rs => simp

/-- Counterexample of C19: the sequence `img.` .. `.jpg` held as the single range (1,7,2)
reports missing files. -/
theorem hasMissingFile_step_two :
    (Sequence.mk ['i', 'm', 'g', '.'] ['.', 'j', 'p', 'g'] false 1 [⟨1, 7, 2⟩]).hasMissingFile
      = true := by
  decide

/-- C19, amended: `extractStep` of the times 1, 3, 5, 7 is 2, and the sequence held as the single
range (1,7,2) has `hasMissingFile()` true, since its step is not 1; a single range of step 1
reports none. -/
theorem extractStep_odd_frames :
    extractStep [1, 3, 5, 7] = 2 ∧
    (Sequence.mk ['i', 'm', 'g', '.'] ['.', 'j', 'p', 'g'] false 1
        [FrameRange.make 1 7 (extractStep [1, 3, 5, 7])]).hasMissingFile = true ∧
    (Sequence.mk ['i', 'm', 'g', '.'] ['.', 'j', 'p', 'g'] false 1
        [FrameRange.make 1 4 1]).hasMissingFile = false := by
  decide

/-- C22: `operator==` is true exactly when prefix, suffix, padding and ranges are equal, so
sequences that differ only in `strictPadding` are equal, and `operator!=` is its negation. -/
theorem beq_iff (a b : Sequence) :
    (a.beq b = true ↔ a.prefix_ = b.prefix_ ∧ a.suffix_ = b.suffix_ ∧ a.padding_ = b.padding_
      ∧ a.ranges_ = b.ranges_) ∧
    a.beq { a with strictPadding_ := !a.strictPadding_ } = true ∧
    a.bne b = !(a.beq b) := by
  refine ⟨?_, ?_, rfl⟩
  · simp [Sequence.beq, and_assoc]
  · simp [Sequence.beq]

/-- Counterexample of C27: with the padding 1 that `extractPadding` finds for the frame strings
`-2`, `-1`, `0`, `1`, `extractIsStrictPadding` is true, the string `0` beginning with `0`. -/
theorem extractIsStrictPadding_signed :
    extractIsStrictPadding [['-', '2'], ['-', '1'], ['0'], ['1']]
      (extractPadding [['-', '2'], ['-', '1'], ['0'], ['1']]) = true := by
  decide

/-- C27, amended: for the frame strings `-2`, `-1`, `0`, `1` the padding analysis yields padding
1 (`extractPadding`, the sign not counted) and strictPadding true (`extractIsStrictPadding` with
that padding: the frame string `0` begins with `0`); without the frame `0` it yields false. -/
theorem extractPadding_signed :
    extractPadding [['-', '2'], ['-', '1'], ['0'], ['1']] = 1 ∧
    extractIsStrictPadding [['-', '2'], ['-', '1'], ['0'], ['1']] 1 = true ∧
    extractIsStrictPadding [['-', '2'], ['-', '1'], ['1']]
      (extractPadding [['-', '2'], ['-', '1'], ['1']]) = false := by
  decide

/-- C28: `isIn` gives the same boolean, time and text for two sequences with the same prefix and
suffix, whatever their ranges, padding and strictPadding are. -/
theorem isIn_depends_on_affixes (timeBits : Nat) (s₁ s₂ : Sequence) (filename : Str)
    (time : Int) (timeStr : Str) (hp : s₁.prefix_ = s₂.prefix_) (hs : s₁.suffix_ = s₂.suffix_) :
    s₁.isIn timeBits filename time timeStr = s₂.isIn timeBits filename time timeStr := by
  unfold Sequence.isIn
  rw [hp, hs]

/-- Witness of C28: the frame 99 written without padding is accepted by a sequence of padding 4
and range (1,10), as it is by the sequence with no range. -/
theorem isIn_depends_on_affixes_witness :
    (Sequence.mk ['f'] ['.', 'j', 'p', 'g'] true 4 [⟨1, 10, 1⟩]).isIn 64
        ['f', '9', '9', '.', 'j', 'p', 'g'] 0 []
      = (Sequence.mk ['f'] ['.', 'j', 'p', 'g'] false 0 []).isIn 64
        ['f', '9', '9', '.', 'j', 'p', 'g'] 0 [] ∧
    (Sequence.mk ['f'] ['.', 'j', 'p', 'g'] true 4 [⟨1, 10, 1⟩]).isIn 64
        ['f', '9', '9', '.', 'j', 'p', 'g'] 0 [] = (true, 99, ['9', '9']) :=
  ⟨isIn_depends_on_affixes 64 _ _ _ 0 [] rfl rfl, by decide⟩


/-! ## The loops of `getFiles` -/

theorem filesOfRange_succ (timeBits : Nat) (s : Sequence) (last : Int) (step fuel : Nat)
    (t : Int) :
    filesOfRange timeBits s last step (fuel + 1) t =
      if t ≤ last then
        match filesOfRange timeBits s last step fuel (toTime timeBits (t + (step : Int))) with
        | some rest => some (s.getFilenameAt t :: rest)
        | none => none
      else some [] := rfl

theorem toTime_of_range (timeBits : Nat) (htb : 1 ≤ timeBits) (x : Int)
    (hlo : -((2 ^ (timeBits - 1) : Nat) : Int) ≤ x) (hhi : x < ((2 ^ (timeBits - 1) : Nat) : Int)) :
    toTime timeBits x = x := by
  obtain ⟨k, rfl⟩ : ∃ k, timeBits = k + 1 := ⟨timeBits - 1, by omega⟩
  have hM : ((2 ^ (k + 1) : Nat) : Int) = 2 * ((2 ^ (k + 1 - 1) : Nat) : Int) := by
    rw [Nat.add_sub_cancel, pow_succ]
    push_cast
    ring
  unfold toTime
  rw [hM]
  obtain ⟨P, hP⟩ : ∃ P : Int, ((2 ^ (k + 1 - 1) : Nat) : Int) = P := ⟨_, rfl⟩
  rw [hP] at hlo hhi ⊢
  rw [Int.emod_eq_of_lt (by linarith) (by linarith)]
  ring

theorem toTime_idem (timeBits : Nat) (x : Int) :
    toTime timeBits (toTime timeBits x) = toTime timeBits x := by
  unfold toTime
  rw [sub_add_cancel, Int.emod_emod]

theorem toTime_one_le (timeBits : Nat) : toTime timeBits 1 ≤ 1 := by
  unfold toTime
  obtain ⟨P, hP⟩ : ∃ P : Int, ((2 ^ (timeBits - 1) : Nat) : Int) = P := ⟨_, rfl⟩
  obtain ⟨M, hM⟩ : ∃ M : Int, ((2 ^ timeBits : Nat) : Int) = M := ⟨_, rfl⟩
  have hP0 : 0 ≤ P := by rw [← hP]; positivity
  have hM0 : 0 < M := by rw [← hM]; positivity
  rw [hP, hM]
  by_cases h : 1 + P < M
  · rw [Int.emod_eq_of_lt (by linarith) h]
    linarith
  · have := Int.emod_lt_of_pos (1 + P) hM0
    linarith

theorem filesOfRange_stuck (timeBits : Nat) (s : Sequence) (last u : Int) (hu : u ≤ last)
    (hfix : toTime timeBits u = u) (fuel : Nat) :
    filesOfRange timeBits s last 0 fuel u = none := by
  induction fuel with
  | zero => rfl
  | succ n ih =>
    rw [filesOfRange_succ, if_pos hu]
    have h0 : u + ((0 : Nat) : Int) = u := by simp
    rw [h0, hfix, ih]

theorem filesOfRange_zero_step (timeBits : Nat) (s : Sequence) (last t : Int) (h : t ≤ last)
    (hw : toTime timeBits t ≤ last) (fuel : Nat) :
    filesOfRange timeBits s last 0 fuel t = none := by
  cases fuel with
  | zero => rfl
  | succ n =>
    rw [filesOfRange_succ, if_pos h]
    have h0 : t + ((0 : Nat) : Int) = t := by simp
    rw [h0, filesOfRange_stuck timeBits s last _ hw (toTime_idem timeBits t) n]

theorem filesOfRange_count (timeBits : Nat) (htb : 1 ≤ timeBits) (s : Sequence) (last : Int)
    (step : Nat) :
    ∀ (n : Nat) (t : Int) (fuel : Nat), n < fuel → last < t + (n : Int) * (step : Int) →
      (∀ i : Nat, i < n → t + (i : Int) * (step : Int) ≤ last) →
      -((2 ^ (timeBits - 1) : Nat) : Int) ≤ t →
      (n ≠ 0 → t + (n : Int) * (step : Int) < ((2 ^ (timeBits - 1) : Nat) : Int)) →
      filesOfRange timeBits s last step fuel t
        = some ((List.range n).map
            (fun (i : Nat) => s.getFilenameAt (t + (i : Int) * (step : Int)))) := by
  intro n
  induction n with
  | zero =>
    intro t fuel hf hlt _ _ _
    obtain ⟨f, rfl⟩ : ∃ f, fuel = f + 1 := ⟨fuel - 1, by omega⟩
    have h : ¬ t ≤ last := by
      simp only [Nat.cast_zero, zero_mul, add_zero] at hlt
      exact not_le.mpr hlt
    rw [filesOfRange_succ, if_neg h]
    rfl
  | succ n ih =>
    intro t fuel hf hlt hle hlo hhi
    obtain ⟨f, rfl⟩ : ∃ f, fuel = f + 1 := ⟨fuel - 1, by omega⟩
    have hs0 : (0 : Int) ≤ (step : Int) := by positivity
    have hns : (0 : Int) ≤ (n : Int) * (step : Int) := mul_nonneg (by positivity) hs0
    have h : t ≤ last := by
      have := hle 0 (Nat.succ_pos n)
      simpa using this
    have e : t + ((n + 1 : Nat) : Int) * (step : Int)
        = t + (step : Int) + (n : Int) * (step : Int) := by push_cast; ring
    have hhi2 := hhi (Nat.succ_ne_zero n)
    rw [e] at hhi2
    have hlt2 : last < t + (step : Int) + (n : Int) * (step : Int) := by
      rw [← e]; exact hlt
    have hle2 : ∀ i : Nat, i < n → t + (step : Int) + (i : Int) * (step : Int) ≤ last := by
      intro i hi
      have e : t + ((i + 1 : Nat) : Int) * (step : Int)
          = t + (step : Int) + (i : Int) * (step : Int) := by push_cast; ring
      rw [← e]; exact hle (i + 1) (by omega)
    have hw : toTime timeBits (t + (step : Int)) = t + (step : Int) :=
      toTime_of_range timeBits htb _ (by linarith) (by linarith)
    rw [filesOfRange_succ, if_pos h, hw,
      ih (t + (step : Int)) f (by omega) hlt2 hle2 (by linarith) (fun _ => hhi2)]
    rw [List.range_succ_eq_map, List.map_cons, List.map_map]
    simp only [Nat.cast_zero, zero_mul, add_zero]
    congr 2
    apply List.map_congr_left
    intro i _
    have e : t + ((i + 1 : Nat) : Int) * (step : Int)
        = t + (step : Int) + (i : Int) * (step : Int) := by push_cast; ring
    simp only [Function.comp, Nat.succ_eq_add_one]
    rw [e]

theorem quotient_bounds (a : Int) (step : Nat) (ha : 0 ≤ a) (hstep : 1 ≤ step) :
    0 ≤ a / (step : Int) ∧ a / (step : Int) * (step : Int) ≤ a
      ∧ a < (a / (step : Int) + 1) * (step : Int) := by
  have hs : (0 : Int) < (step : Int) := by exact_mod_cast hstep
  exact ⟨Int.ediv_nonneg ha hs.le, Int.ediv_mul_le a hs.ne', Int.lt_ediv_add_one_mul_self a hs⟩

theorem mem_timesOfRange (r : FrameRange) (hstep : 1 ≤ r.step) (t : Int) :
    t ∈ timesOfRange r ↔ ∃ k : Nat, t = r.first + (k : Int) * (r.step : Int) ∧ t ≤ r.last := by
  have hs : (0 : Int) < (r.step : Int) := by exact_mod_cast hstep
  unfold timesOfRange
  by_cases h : r.first ≤ r.last
  · rw [if_pos h]
    obtain ⟨q0, qle, qlt⟩ := quotient_bounds (r.last - r.first) r.step (sub_nonneg.mpr h) hstep
    obtain ⟨q, hq⟩ : ∃ q : Nat, (r.last - r.first) / (r.step : Int) = (q : Int) :=
      ⟨_, (Int.toNat_of_nonneg q0).symm⟩
    rw [hq] at qle qlt ⊢
    simp only [Int.toNat_ofNat, List.mem_map, List.mem_range]
    constructor
    · rintro ⟨i, hi, rfl⟩
      refine ⟨i, rfl, ?_⟩
      have hiq : (i : Int) ≤ (q : Int) := by exact_mod_cast Nat.lt_succ_iff.mp hi
      have := mul_le_mul_of_nonneg_right hiq hs.le
      linarith
    · rintro ⟨k, rfl, hk⟩
      refine ⟨k, ?_, rfl⟩
      by_contra hcon
      have hkq : (q : Int) + 1 ≤ (k : Int) := by exact_mod_cast not_lt.mp hcon
      have := mul_le_mul_of_nonneg_right hkq hs.le
      linarith
  · rw [if_neg h]
    simp only [List.not_mem_nil, false_iff, not_exists, not_and, not_le]
    rintro k rfl
    have : (0 : Int) ≤ (k : Int) * (r.step : Int) := mul_nonneg (by positivity) hs.le
    linarith

theorem timesOfRange_sorted (r : FrameRange) (hstep : 1 ≤ r.step) :
    (timesOfRange r).Pairwise (· < ·) := by
  have hs : (0 : Int) < (r.step : Int) := by exact_mod_cast hstep
  unfold timesOfRange
  split
  · rw [List.pairwise_map]
    refine List.Pairwise.imp ?_ (List.pairwise_lt_range _)
    intro a b hab
    have hab2 : (a : Int) < (b : Int) := by exact_mod_cast hab
    have := mul_lt_mul_of_pos_right hab2 hs
    linarith
  · exact List.Pairwise.nil

theorem filesOfRange_times (timeBits : Nat) (htb : 1 ≤ timeBits) (s : Sequence)
    (r : FrameRange) (hstep : 1 ≤ r.step)
    (hlo : -((2 ^ (timeBits - 1) : Nat) : Int) ≤ r.first)
    (hhi : ∀ t ∈ timesOfRange r, t + (r.step : Int) < ((2 ^ (timeBits - 1) : Nat) : Int))
    (fuel : Nat) (hf : ((r.last - r.first) / (r.step : Int)).toNat + 1 < fuel) :
    filesOfRange timeBits s r.last r.step fuel r.first
      = some ((timesOfRange r).map s.getFilenameAt) := by
  by_cases h : r.first ≤ r.last
  · obtain ⟨q0, qle, qlt⟩ := quotient_bounds (r.last - r.first) r.step (sub_nonneg.mpr h) hstep
    have hs : (0 : Int) < (r.step : Int) := by exact_mod_cast hstep
    obtain ⟨q, hq⟩ : ∃ q : Nat, (r.last - r.first) / (r.step : Int) = (q : Int) :=
      ⟨_, (Int.toNat_of_nonneg q0).symm⟩
    have hmem : r.first + (q : Int) * (r.step : Int) ∈ timesOfRange r := by
      rw [mem_timesOfRange r hstep]
      refine ⟨q, rfl, ?_⟩
      rw [hq] at qle
      linarith
    have hhi2 := hhi _ hmem
    unfold timesOfRange
    rw [if_pos h, List.map_map]
    rw [hq] at qle qlt hf ⊢
    simp only [Int.toNat_ofNat] at hf ⊢
    refine filesOfRange_count timeBits htb s r.last r.step (q + 1) r.first fuel hf ?_ ?_ hlo ?_
    · push_cast; linarith
    · intro i hi
      have hiq : (i : Int) ≤ (q : Int) := by exact_mod_cast Nat.lt_succ_iff.mp hi
      have := mul_le_mul_of_nonneg_right hiq hs.le
      linarith
    · intro _
      have e : r.first + ((q + 1 : Nat) : Int) * (r.step : Int)
          = r.first + (q : Int) * (r.step : Int) + (r.step : Int) := by push_cast; ring
      rw [e]
      exact hhi2
  · unfold timesOfRange
    rw [if_neg h]
    obtain ⟨f, rfl⟩ : ∃ f, fuel = f + 1 := ⟨fuel - 1, by omega⟩
    rw [filesOfRange_succ, if_neg h]
    rfl

theorem filesOfRanges_times (timeBits : Nat) (htb : 1 ≤ timeBits) (s : Sequence)
    (rs : List FrameRange)
    (h : ∀ r ∈ rs, 1 ≤ r.step ∧ -((2 ^ (timeBits - 1) : Nat) : Int) ≤ r.first ∧
      ∀ t ∈ timesOfRange r, t + (r.step : Int) < ((2 ^ (timeBits - 1) : Nat) : Int)) :
    ∃ N, ∀ fuel, N ≤ fuel →
      filesOfRanges timeBits s fuel rs = some ((timesOfRanges rs).map s.getFilenameAt) := by
  induction rs with
  | nil => exact ⟨0, fun _ _ => rfl⟩
  | cons r rs ih =>
    obtain ⟨N, hN⟩ := ih (fun x hx => h x (List.mem_cons_of_mem _ hx))
    obtain ⟨h1, h2, h3⟩ := h r (List.mem_cons_self _ _)
    refine ⟨max N (((r.last - r.first) / (r.step : Int)).toNat + 2), ?_⟩
    intro fuel hfuel
    have e1 := filesOfRange_times timeBits htb s r h1 h2 h3 fuel
      (by have := le_max_right N (((r.last - r.first) / (r.step : Int)).toNat + 2); omega)
    have e2 := hN fuel (le_trans (le_max_left _ _) hfuel)
    show (match filesOfRange timeBits s r.last r.step fuel r.first,
        filesOfRanges timeBits s fuel rs with
      | some a, some b => some (a ++ b)
      | _, _ => none) = _
    rw [e1, e2]
    show some _ = some ((timesOfRange r ++ timesOfRanges rs).map s.getFilenameAt)
    rw [List.map_append]

/-! ## Claims on `getFiles` -/

/-- Counterexample of C20: for a 64-bit `Time`, the range (5,5,2^63-1) has first <= last and
step >= 1 and its one time is 5, but the sum `t += step` leaves the range of `Time` and comes
back below `last`: `getFiles` returns seven names where `getFilenameAt(5)` alone is
expected. -/
theorem getFiles_wraps :
    ((5 : Int) ≤ 5 ∧ 1 ≤ 9223372036854775807) ∧
    timesOfRanges [⟨5, 5, 9223372036854775807⟩] = [5] ∧
    (Sequence.mk ['f'] ['.', 'x'] false 1 [⟨5, 5, 9223372036854775807⟩]).getFiles 64 8
      = some [['f', '5', '.', 'x'], ['f', '-', '4', '.', 'x'], ['f', '3', '.', 'x'],
          ['f', '-', '2', '.', 'x'], ['f', '1', '.', 'x'], ['f', '-', '0', '.', 'x'],
          ['f', '-', '1', '.', 'x']] := by
  decide

/-- C20, amended: for a `Time` of `timeBits` bits and a sequence whose ranges have
first <= last and step >= 1, with every time of a range and the sum of that time and the step
inside the range of `Time`, `getFiles`, given enough rounds, returns the names
`getFilenameAt` gives to the times of the ranges, range after range; the times of a range are
`first`, `first + step`, .. up to `last`, in increasing order. -/
theorem getFiles_eq (timeBits : Nat) (s : Sequence) (htb : 1 ≤ timeBits)
    (h : ∀ r ∈ s.ranges_, r.first ≤ r.last ∧ 1 ≤ r.step ∧
      -((2 ^ (timeBits - 1) : Nat) : Int) ≤ r.first ∧
      ∀ t ∈ timesOfRange r, t + (r.step : Int) < ((2 ^ (timeBits - 1) : Nat) : Int)) :
    (∃ N, ∀ fuel, N ≤ fuel →
      s.getFiles timeBits fuel = some ((timesOfRanges s.ranges_).map s.getFilenameAt)) ∧
    (∀ r ∈ s.ranges_,
      (∀ t, t ∈ timesOfRange r ↔ ∃ k : Nat, t = r.first + (k : Int) * (r.step : Int) ∧ t ≤ r.last)
      ∧ (timesOfRange r).Pairwise (· < ·)) :=
  ⟨filesOfRanges_times timeBits htb s s.ranges_ (fun r hr => (h r hr).2),
    fun r hr => ⟨mem_timesOfRange r (h r hr).2.1, timesOfRange_sorted r (h r hr).2.1⟩⟩

/-- Witness of the amended C20 on the sequence `f#.x` with the ranges (1,5,2) and (8,9,1) and
a 64-bit `Time`: five rounds are enough and the names are those of 1, 3, 5, 8, 9. -/
theorem getFiles_eq_witness :
    (Sequence.mk ['f'] ['.', 'x'] false 1 [⟨1, 5, 2⟩, ⟨8, 9, 1⟩]).getFiles 64 5
      = some [['f', '1', '.', 'x'], ['f', '3', '.', 'x'], ['f', '5', '.', 'x'],
          ['f', '8', '.', 'x'], ['f', '9', '.', 'x']] ∧
    ((∃ N, ∀ fuel, N ≤ fuel →
      (Sequence.mk ['f'] ['.', 'x'] false 1 [⟨1, 5, 2⟩, ⟨8, 9, 1⟩]).getFiles 64 fuel
        = some ((timesOfRanges [⟨1, 5, 2⟩, ⟨8, 9, 1⟩]).map
            (Sequence.mk ['f'] ['.', 'x'] false 1 [⟨1, 5, 2⟩, ⟨8, 9, 1⟩]).getFilenameAt)) ∧
    (∀ r ∈ [(⟨1, 5, 2⟩ : FrameRange), ⟨8, 9, 1⟩],
      (∀ t, t ∈ timesOfRange r ↔ ∃ k : Nat, t = r.first + (k : Int) * (r.step : Int) ∧ t ≤ r.last)
      ∧ (timesOfRange r).Pairwise (· < ·))) :=
  ⟨by decide,
    getFiles_eq 64 (Sequence.mk ['f'] ['.', 'x'] false 1 [⟨1, 5, 2⟩, ⟨8, 9, 1⟩]) (by decide)
      (by decide)⟩

/-- C21: the sequence that `init` makes with first time 1, last time 1 and step 0 has a range
on which the loop of `getFiles` never ends: whatever the width of `Time`, no number of rounds
gives a list of names. -/
theorem getFiles_zero_step (timeBits fuel : Nat) :
    ((Sequence.mk [] [] false 0 []).init ['f'] 1 ['.', 'x'] 1 1 0 false).getFiles timeBits fuel
      = none := by
  have h := filesOfRange_zero_step timeBits (Sequence.mk ['f'] ['.', 'x'] false 1 [⟨1, 1, 0⟩])
    1 1 (le_refl _) (toTime_one_le timeBits) fuel
  show (match filesOfRange timeBits (Sequence.mk ['f'] ['.', 'x'] false 1 [⟨1, 1, 0⟩]) 1 0
        fuel 1,
      filesOfRanges timeBits (Sequence.mk ['f'] ['.', 'x'] false 1 [⟨1, 1, 0⟩]) fuel [] with
    | some a, some b => some (a ++ b)
    | _, _ => none) = none
  rw [h]

/-! ## The names of different times -/

theorem getFilenameAt_intMin (s : Sequence) :
    s.getFilenameAt (-2147483648)
      = s.prefix_ ++ ('-' :: putFilled (setw s.padding_) '0' ('-' :: showNat 2147483648))
          ++ s.suffix_ := by
  have h1 : showInt (absInt (toInt32 (-2147483648))) = '-' :: showNat 2147483648 := by decide
  have h0 : ¬ ((-2147483648 : Int) ≥ 0) := by decide
  unfold Sequence.getFilenameAt
  rw [if_neg h0, h1]
  show s.prefix_ ++ ['-'] ++ putFilled (setw s.padding_) '0' ('-' :: showNat 2147483648)
    ++ s.suffix_ = _
  rw [List.append_assoc s.prefix_ ['-'], List.singleton_append]

theorem lexicalCastTime_intMin_name (timeBits : Nat) (w : Int) :
    lexicalCastTime timeBits ('-' :: putFilled w '0' ('-' :: showNat 2147483648)) = none := by
  have hl : lcastUnsigned (putFilled w '0' ('-' :: showNat 2147483648)) = none := by
    cases h : lcastUnsigned (putFilled w '0' ('-' :: showNat 2147483648)) with
    | none => rfl
    | some v =>
      have hd := (lcastUnsigned_eq_some.mp h).2.1 '-'
        (List.mem_append_right _ (List.mem_cons_self _ _))
      exact absurd hd (by decide)
  rw [lexicalCastTime_cons, if_pos (Or.inl rfl), hl]

theorem getFilenameAt_raw (s : Sequence) (t : Int) (hlo : -2147483648 ≤ t)
    (hhi : t < 2147483648) :
    ∃ raw, s.getFilenameAt t = s.prefix_ ++ raw ++ s.suffix_ ∧
      lexicalCastTime 64 raw = if t = -2147483648 then none else some t := by
  by_cases h : t = -2147483648
  · subst h
    exact ⟨_, getFilenameAt_intMin s, by rw [if_pos rfl]; exact lexicalCastTime_intMin_name 64 _⟩
  · have e : ((2 ^ (64 - 1) : Nat) : Int) = 9223372036854775808 := by norm_num
    obtain ⟨raw, h1, _, h3⟩ := isIn_getFilenameAt 64 s t 0 [] (by omega)
      (by rw [e]; omega) (by rw [e]; omega)
    exact ⟨raw, h1, by rw [if_neg h]; exact h3⟩

theorem getFilenameAt_inj (s : Sequence) (t₁ t₂ : Int) (hlo₁ : -2147483648 ≤ t₁)
    (hhi₁ : t₁ < 2147483648) (hlo₂ : -2147483648 ≤ t₂) (hhi₂ : t₂ < 2147483648)
    (h : s.getFilenameAt t₁ = s.getFilenameAt t₂) : t₁ = t₂ := by
  obtain ⟨raw₁, e₁, c₁⟩ := getFilenameAt_raw s t₁ hlo₁ hhi₁
  obtain ⟨raw₂, e₂, c₂⟩ := getFilenameAt_raw s t₂ hlo₂ hhi₂
  rw [e₁, e₂, List.append_assoc, List.append_assoc] at h
  have hr : raw₁ = raw₂ := List.append_cancel_right (List.append_cancel_left h)
  rw [hr, c₂] at c₁
  by_cases h1 : t₁ = -2147483648
  · by_cases h2 : t₂ = -2147483648
    · rw [h1, h2]
    · rw [if_pos h1, if_neg h2] at c₁
      exact absurd c₁ (by simp)
  · by_cases h2 : t₂ = -2147483648
    · rw [if_neg h1, if_pos h2] at c₁
      exact absurd c₁ (by simp)
    · rw [if_neg h1, if_neg h2] at c₁
      exact (Option.some.inj c₁).symm

theorem mem_timesOfRanges (rs : List FrameRange) (t : Int) :
    t ∈ timesOfRanges rs ↔ ∃ r ∈ rs, t ∈ timesOfRange r := by
  induction rs with
  | nil => simp [timesOfRanges]
  | cons r rs ih => simp [timesOfRanges, ih]

theorem timesOfRange_bounds (r : FrameRange) (hstep : 1 ≤ r.step) (t : Int)
    (h : t ∈ timesOfRange r) : r.first ≤ t ∧ t ≤ r.last := by
  obtain ⟨k, hk, hle⟩ := (mem_timesOfRange r hstep t).mp h
  have hs : (0 : Int) ≤ (r.step : Int) := by positivity
  have : (0 : Int) ≤ (k : Int) * (r.step : Int) := mul_nonneg (by positivity) hs
  exact ⟨by rw [hk]; linarith, hle⟩

theorem timesOfRanges_sorted (rs : List FrameRange) (hstep : ∀ r ∈ rs, 1 ≤ r.step)
    (hord : rs.Pairwise (fun a b => a.last < b.first)) :
    (timesOfRanges rs).Pairwise (· < ·) := by
  induction rs with
  | nil => exact List.Pairwise.nil
  | cons r rs ih =>
    rw [List.pairwise_cons] at hord
    show (timesOfRange r ++ timesOfRanges rs).Pairwise (· < ·)
    rw [List.pairwise_append]
    refine ⟨timesOfRange_sorted r (hstep r (List.mem_cons_self _ _)),
      ih (fun x hx => hstep x (List.mem_cons_of_mem _ hx)) hord.2, ?_⟩
    intro a ha b hb
    obtain ⟨r2, hr2, hb2⟩ := (mem_timesOfRanges rs b).mp hb
    have h1 := (timesOfRange_bounds r (hstep r (List.mem_cons_self _ _)) a ha).2
    have h2 := (timesOfRange_bounds r2 (hstep r2 (List.mem_cons_of_mem _ hr2)) b hb2).1
    have h3 : r.last < r2.first := hord.1 r2 hr2
    exact lt_of_le_of_lt h1 (lt_of_lt_of_le h3 h2)

theorem getFiles_nodup (timeBits : Nat) (htb : 32 ≤ timeBits) (s : Sequence)
    (h : ∀ r ∈ s.ranges_, r.first ≤ r.last ∧ 1 ≤ r.step ∧ -2147483648 ≤ r.first
      ∧ r.last < 2147483648
      ∧ ∀ t ∈ timesOfRange r, t + (r.step : Int) < ((2 ^ (timeBits - 1) : Nat) : Int))
    (hord : s.ranges_.Pairwise (fun a b => a.last < b.first)) :
    ∃ N, ∀ fuel, N ≤ fuel → ∃ files, s.getFiles timeBits fuel = some files ∧ files.Nodup := by
  have hP : (2147483648 : Int) ≤ ((2 ^ (timeBits - 1) : Nat) : Int) := by
    have h2 : 2 ^ 31 ≤ 2 ^ (timeBits - 1) := Nat.pow_le_pow_right (by decide) (by omega)
    have h3 : ((2 ^ 31 : Nat) : Int) ≤ ((2 ^ (timeBits - 1) : Nat) : Int) := by
      exact_mod_cast h2
    have h4 : ((2 ^ 31 : Nat) : Int) = 2147483648 := by norm_num
    rw [h4] at h3
    exact h3
  obtain ⟨N, hN⟩ := filesOfRanges_times timeBits (by omega) s s.ranges_
    (fun r hr => by
      obtain ⟨_, h1, h2, _, h4⟩ := h r hr
      have h2b : (-2147483648 : Int) ≤ r.first := h2
      exact ⟨h1, by linarith, h4⟩)
  refine ⟨N, fun fuel hf => ⟨_, hN fuel hf, ?_⟩⟩
  have hs := timesOfRanges_sorted s.ranges_ (fun r hr => (h r hr).2.1) hord
  have hnd : (timesOfRanges s.ranges_).Nodup := hs.imp (fun hab => ne_of_lt hab)
  have hb : ∀ t ∈ timesOfRanges s.ranges_, -2147483648 ≤ t ∧ t < 2147483648 := by
    intro t ht
    obtain ⟨r, hr, htr⟩ := (mem_timesOfRanges s.ranges_ t).mp ht
    obtain ⟨b1, b2⟩ := timesOfRange_bounds r (h r hr).2.1 t htr
    have c1 : (-2147483648 : Int) ≤ r.first := (h r hr).2.2.1
    have c2 : r.last < (2147483648 : Int) := (h r hr).2.2.2.1
    exact ⟨le_trans c1 b1, lt_of_le_of_lt b2 c2⟩
  exact List.Nodup.map_on
    (fun x hx y hy hxy => getFilenameAt_inj s x y (hb x hx).1 (hb x hx).2 (hb y hy).1 (hb y hy).2 hxy)
    hnd

/-- Counterexample of C29: for a 64-bit `Time`, the one range (0,0,2^63+2^62) has
first <= last and step >= 1 within the range of a 32-bit `int`, but the sum `t += step` leaves
the range of `Time` and comes back below `last` twice, at times that `getFilenameAt` narrows
to the same `int`: `getFiles` returns the name `f-0.x` twice. -/
theorem getFiles_duplicate :
    ((0 : Int) ≤ 0 ∧ 1 ≤ 13835058055282163712) ∧
    (Sequence.mk ['f'] ['.', 'x'] false 1 [⟨0, 0, 13835058055282163712⟩]).getFiles 64 4
      = some [['f', '0', '.', 'x'], ['f', '-', '0', '.', 'x'], ['f', '-', '0', '.', 'x']] ∧
    ¬ [['f', '0', '.', 'x'], ['f', '-', '0', '.', 'x'], ['f', '-', '0', '.', 'x']].Nodup := by
  decide

/-- C29, amended: `getFilenameAt` gives different names to different times of the range of a
32-bit `int`, and for a `Time` of at least 32 bits `getFiles` of a sequence whose ranges are
well formed (first <= last, step >= 1, each range ending before the next begins, times within
that range of `int`) and on which the sum of a time of a range and the step stays inside the
range of `Time` returns, given enough rounds, a list without a duplicate. -/
theorem getFilenameAt_injective (s : Sequence) :
    (∀ t₁ t₂ : Int, -2147483648 ≤ t₁ → t₁ < 2147483648 → -2147483648 ≤ t₂ → t₂ < 2147483648 →
      t₁ ≠ t₂ → s.getFilenameAt t₁ ≠ s.getFilenameAt t₂) ∧
    (∀ timeBits, 32 ≤ timeBits →
      (∀ r ∈ s.ranges_, r.first ≤ r.last ∧ 1 ≤ r.step ∧ -2147483648 ≤ r.first
        ∧ r.last < 2147483648
        ∧ ∀ t ∈ timesOfRange r, t + (r.step : Int) < ((2 ^ (timeBits - 1) : Nat) : Int)) →
      s.ranges_.Pairwise (fun a b => a.last < b.first) →
      ∃ N, ∀ fuel, N ≤ fuel → ∃ files, s.getFiles timeBits fuel = some files ∧ files.Nodup) :=
  ⟨fun t₁ t₂ a b c d hne heq => hne (getFilenameAt_inj s t₁ t₂ a b c d heq),
    fun timeBits htb h hord => getFiles_nodup timeBits htb s h hord⟩

/-- Witness of the amended C29 on the sequence `f#.x` with the ranges (-2,0,1) and (3,7,2) and
a 64-bit `Time`. -/
theorem getFilenameAt_injective_witness :
    (Sequence.mk ['f'] ['.', 'x'] false 1 [⟨-2, 0, 1⟩, ⟨3, 7, 2⟩]).getFilenameAt (-2)
      ≠ (Sequence.mk ['f'] ['.', 'x'] false 1 [⟨-2, 0, 1⟩, ⟨3, 7, 2⟩]).getFilenameAt 2 ∧
    ∃ N, ∀ fuel, N ≤ fuel → ∃ files,
      (Sequence.mk ['f'] ['.', 'x'] false 1 [⟨-2, 0, 1⟩, ⟨3, 7, 2⟩]).getFiles 64 fuel = some files
        ∧ files.Nodup :=
  ⟨(getFilenameAt_injective (Sequence.mk ['f'] ['.', 'x'] false 1 [⟨-2, 0, 1⟩, ⟨3, 7, 2⟩])).1
      (-2) 2 (by decide) (by decide) (by decide) (by decide) (by decide),
    (getFilenameAt_injective (Sequence.mk ['f'] ['.', 'x'] false 1 [⟨-2, 0, 1⟩, ⟨3, 7, 2⟩])).2
      64 (by decide) (by decide) (by simp)⟩

/-! ## Claims on reading a rendered pattern again -/

/-- Counterexample of C30: the prefix `a`, NUL, `b` has none of `#`, `@`, `[`, `]`, and
`retrieveInfosFromPattern` fails on the standard pattern of the sequence, which the regex
functions read up to the NUL only. -/
theorem retrieveInfosFromPattern_getStandardPattern_nul :
    (∀ x ∈ ['a', Char.ofNat 0, 'b'], x ≠ '#' ∧ x ≠ '@' ∧ x ≠ '[' ∧ x ≠ ']') ∧
    retrieveInfosFromPattern
        (Sequence.mk ['a', Char.ofNat 0, 'b'] ['.', 'x'] false 4 [⟨1, 9, 1⟩]).getStandardPattern
        ePatternDefault ⟨[], [], 0, false⟩ = .returned (false, ⟨[], [], 0, false⟩) := by
  decide

/-- C30, amended: for every sequence whose prefix and suffix contain none of `#`, `@`, `[`, `]`
and no NUL character, `retrieveInfosFromPattern` (Standard flavor accepted) succeeds on
`getStandardPattern()` and gives the same prefix and suffix and the padding `max(padding, 1)`;
a sequence of padding >= 1 and one range, filled again by `initFromPattern` from its standard
pattern and that range, is equal to the original by `operator==`, and one of padding 0 comes
back with padding 1 and is not equal. -/
theorem retrieveInfosFromPattern_getStandardPattern (s : Sequence) (accept : Nat)
    (hacc : accept &&& ePatternStandard ≠ 0)
    (hp : ∀ x ∈ s.prefix_, x ≠ '#' ∧ x ≠ '@' ∧ x ≠ '[' ∧ x ≠ ']' ∧ x ≠ Char.ofNat 0)
    (hs : ∀ x ∈ s.suffix_, x ≠ '#' ∧ x ≠ '@' ∧ x ≠ '[' ∧ x ≠ ']' ∧ x ≠ Char.ofNat 0) :
    (∀ out, retrieveInfosFromPattern s.getStandardPattern accept out
      = .returned (true, ⟨s.prefix_, s.suffix_, max s.padding_ 1, decide (0 < s.padding_)⟩)) ∧
    (∀ (s₀ : Sequence) (r : FrameRange), s.ranges_ = [r] → r.step < SIZE_MOD →
      ∃ s₁, s₀.initFromPattern s.getStandardPattern r.first r.last (r.step : Int) accept
          = .returned (true, s₁) ∧
        s₁.padding_ = max s.padding_ 1 ∧
        (s.beq s₁ = true ↔ 1 ≤ s.padding_)) := by
  have key : ∀ out, retrieveInfosFromPattern s.getStandardPattern accept out
      = .returned (true, ⟨s.prefix_, s.suffix_, max s.padding_ 1, decide (0 < s.padding_)⟩) := by
    intro out
    have hm : (if 0 < s.padding_ then '#' else '@') = '#' ∨
        (if 0 < s.padding_ then '#' else '@') = '@' := by
      by_cases h : 0 < s.padding_
      · exact Or.inl (if_pos h)
      · exact Or.inr (if_neg h)
    have h := standardBranch_returns s.prefix_ s.suffix_ (if 0 < s.padding_ then '#' else '@')
      (max s.padding_ 1) false accept out hacc (le_max_right _ _) hm hp hs
    have hd : decide ((if 0 < s.padding_ then '#' else '@') = '#') = decide (0 < s.padding_) := by
      by_cases h0 : 0 < s.padding_
      · simp [h0]
      · simp [h0]
    rw [hd] at h
    simp only [Bool.false_eq_true, if_false, List.nil_append] at h
    rw [getStandardPattern_eq, List.append_assoc]
    exact h
  refine ⟨key, ?_⟩
  intro s₀ r hr hstep
  have hsz : toSizeT (r.step : Int) = r.step := by
    unfold toSizeT
    rw [Int.emod_eq_of_lt (by positivity) (by exact_mod_cast hstep)]
    exact Int.toNat_ofNat _
  refine ⟨⟨s.prefix_, s.suffix_, decide (0 < s.padding_), max s.padding_ 1,
    [FrameRange.make r.first r.last (r.step : Int)]⟩, ?_, rfl, ?_⟩
  · unfold Sequence.initFromPattern
    rw [key]
    rfl
  · have hmk : FrameRange.make r.first r.last (r.step : Int) = r := by
      unfold FrameRange.make
      rw [hsz]
    simp only [Sequence.beq, hmk, hr, decide_True, Bool.and_true, Bool.true_and,
      decide_eq_true_eq]
    constructor
    · intro h; rw [h]; exact le_max_right _ _
    · intro h; exact (max_eq_left h).symm

/-- Witness of the amended C30 on the sequence `img.####.jpg` with the range (1,9,1). -/
theorem retrieveInfosFromPattern_getStandardPattern_witness :
    (Sequence.mk ['i', 'm', 'g', '.'] ['.', 'j', 'p', 'g'] false 4 [⟨1, 9, 1⟩]).getStandardPattern
      = ['i', 'm', 'g', '.', '#', '#', '#', '#', '.', 'j', 'p', 'g'] ∧
    ((∀ out, retrieveInfosFromPattern
        (Sequence.mk ['i', 'm', 'g', '.'] ['.', 'j', 'p', 'g'] false 4
          [⟨1, 9, 1⟩]).getStandardPattern ePatternDefault out
      = .returned (true, ⟨['i', 'm', 'g', '.'], ['.', 'j', 'p', 'g'], max 4 1,
          decide (0 < 4)⟩)) ∧
    (∀ (s₀ : Sequence) (r : FrameRange), [(⟨1, 9, 1⟩ : FrameRange)] = [r] → r.step < SIZE_MOD →
      ∃ s₁, s₀.initFromPattern
          (Sequence.mk ['i', 'm', 'g', '.'] ['.', 'j', 'p', 'g'] false 4
            [⟨1, 9, 1⟩]).getStandardPattern r.first r.last (r.step : Int) ePatternDefault
          = .returned (true, s₁) ∧
        s₁.padding_ = max 4 1 ∧
        ((Sequence.mk ['i', 'm', 'g', '.'] ['.', 'j', 'p', 'g'] false 4 [⟨1, 9, 1⟩]).beq s₁ = true
          ↔ 1 ≤ 4))) :=
  ⟨by decide,
    retrieveInfosFromPattern_getStandardPattern
      (Sequence.mk ['i', 'm', 'g', '.'] ['.', 'j', 'p', 'g'] false 4 [⟨1, 9, 1⟩]) ePatternDefault
      (by decide) (by decide) (by decide)⟩


/-! ## Claims on the detectors -/

/-- C24: for a bucket of one file name with two numeric fields, fragments `a`, `b`, `.jpg` and
raw numbers `1`, `2`, the name made by `fileInDirectory` and `fileAndSequenceInDirectory` is
`a1b`, not the original `a1b2.jpg`, which the loop of `fileObjectInDirectory` does make. -/
theorem singletonFilename_two_numbers :
    singletonFilename (fun i => [['a'], ['b'], ['.', 'j', 'p', 'g']].getD i [])
        (fun i => [['1'], ['2']].getD i []) = ['a', '1', 'b'] ∧
    splice [['a'], ['b'], ['.', 'j', 'p', 'g']] [['1'], ['2']]
      = ['a', '1', 'b', '2', '.', 'j', 'p', 'g'] ∧
    singletonFilenameAll (fun i => [['a'], ['b'], ['.', 'j', 'p', 'g']].get? i)
        (fun i => [['1'], ['2']].getD i []) 2 = some ['a', '1', 'b', '2', '.', 'j', 'p', 'g'] := by
  decide


/-! ## The loops of the detectors -/

theorem foldl_range_succ {α : Type} (f : α → Nat → α) (a : α) (n : Nat) :
    (List.range (n + 1)).foldl f a = (List.range n).foldl (fun acc i => f acc (i + 1)) (f a 0) := by
  rw [List.range_succ_eq_map, List.foldl_cons, List.foldl_map]

theorem singletonFilenameAll_splice : ∀ (raws ss : List Str) (acc s₀ : Str),
    ss.length = raws.length →
    (List.range raws.length).foldl
        (fun filename i =>
          match filename, (s₀ :: ss)[i + 1]? with
          | some f, some s => some (f ++ raws.getD i [] ++ s)
          | _, _ => none)
        (some (acc ++ s₀))
      = some (acc ++ splice (s₀ :: ss) raws) := by
  intro raws
  induction raws with
  | nil =>
    intro ss acc s₀ h
    cases ss with
    | nil => rfl
    | cons _ _ => simp at h
  | cons n ns ih =>
    intro ss acc s₀ h
    cases ss with
    | nil => simp at h
    | cons s₁ ss =>
      have hl : ss.length = ns.length := by simpa using h
      rw [List.length_cons, foldl_range_succ]
      have e := ih ss (acc ++ s₀ ++ n) s₁ hl
      simp only [List.getElem?_cons_succ, List.getElem?_cons_zero, List.getD_cons_zero,
        List.getD_cons_succ] at e ⊢
      rw [e]
      simp [splice, List.append_assoc]

theorem foldl_filter {α β : Type} (step : β → α → β) (keep : α → Bool)
    (h : ∀ acc x, keep x = false → step acc x = acc) :
    ∀ (l : List α) (acc : β), l.foldl step acc = (l.filter keep).foldl step acc := by
  intro l
  induction l with
  | nil => intro acc; rfl
  | cons x xs ih =>
    intro acc
    cases hk : keep x with
    | true => rw [List.filter_cons_of_pos hk, List.foldl_cons, List.foldl_cons, ih]
    | false =>
      rw [List.filter_cons_of_neg (by simp [hk]), List.foldl_cons, h acc x hk, ih]

theorem pushSequence_foldl_ne_one (isDirectory : Sequence → Bool)
    (getNbFrames : FrameRange → Int) :
    ∀ (l out : List Sequence), (∀ s ∈ out, s.getNbFiles getNbFrames ≠ 1) →
      ∀ s ∈ l.foldl (pushSequence isDirectory getNbFrames) out,
        s.getNbFiles getNbFrames ≠ 1 := by
  intro l
  induction l with
  | nil => intro out h; exact h
  | cons x xs ih =>
    intro out h
    rw [List.foldl_cons]
    apply ih
    intro s hs
    unfold pushSequence at hs
    split at hs
    · split at hs
      · rcases List.mem_append.mp hs with hs | hs
        · exact h s hs
        · rw [List.mem_singleton.mp hs]; assumption
      · exact h s hs
    · exact h s hs

theorem sequencesOfBuckets_foldl_ne_one {FS FN : Type}
    (buildSequences : FS → List FN → List Sequence) (isDirectory : Sequence → Bool)
    (getNbFrames : FrameRange → Int) :
    ∀ (sequences : List (FS × List FN)) (out : List Sequence),
      (∀ s ∈ out, s.getNbFiles getNbFrames ≠ 1) →
      ∀ s ∈ sequences.foldl
          (fun out p =>
            (buildSequences p.1 p.2).foldl (pushSequence isDirectory getNbFrames) out) out,
        s.getNbFiles getNbFrames ≠ 1 := by
  intro sequences
  induction sequences with
  | nil => intro out h; exact h
  | cons p ps ih =>
    intro out h
    rw [List.foldl_cons]
    exact ih _ (pushSequence_foldl_ne_one isDirectory getNbFrames _ out h)

theorem pushFileObject_foldl (isDirectory : Sequence → Bool) (getNbFrames : FrameRange → Int) :
    ∀ (l : List Sequence) (out : List Str × List Sequence),
      ((∀ s ∈ out.2, s.getNbFiles getNbFrames ≠ 1) →
        ∀ s ∈ (l.foldl (pushFileObject isDirectory getNbFrames) out).2,
          s.getNbFiles getNbFrames ≠ 1) ∧
      (∀ x ∈ out.1, x ∈ (l.foldl (pushFileObject isDirectory getNbFrames) out).1) ∧
      (∀ c ∈ l, isDirectory c = false → c.getNbFiles getNbFrames = 1 →
        c.getFirstFilename ∈ (l.foldl (pushFileObject isDirectory getNbFrames) out).1) := by
  intro l
  induction l with
  | nil => intro out; exact ⟨fun h => h, fun x hx => hx, fun c hc => absurd hc (List.not_mem_nil c)⟩
  | cons x xs ih =>
    intro out
    rw [List.foldl_cons]
    obtain ⟨i1, i2, i3⟩ := ih (pushFileObject isDirectory getNbFrames out x)
    have m1 : (∀ s ∈ out.2, s.getNbFiles getNbFrames ≠ 1) →
        ∀ s ∈ (pushFileObject isDirectory getNbFrames out x).2,
          s.getNbFiles getNbFrames ≠ 1 := by
      intro h s hs
      unfold pushFileObject at hs
      split at hs
      · split at hs
        · exact h s hs
        · rcases List.mem_append.mp hs with hs | hs
          · exact h s hs
          · rw [List.mem_singleton.mp hs]; assumption
      · exact h s hs
    have m2 : ∀ y ∈ out.1, y ∈ (pushFileObject isDirectory getNbFrames out x).1 := by
      intro y hy
      unfold pushFileObject
      split
      · split
        · exact List.mem_append_left _ hy
        · exact hy
      · exact hy
    refine ⟨fun h => i1 (m1 h), fun y hy => i2 y (m2 y hy), ?_⟩
    intro c hc hdir hnb
    rcases List.mem_cons.mp hc with rfl | hc
    · apply i2
      unfold pushFileObject
      rw [if_pos (by simp [hdir]), if_pos hnb]
      exact List.mem_append_right _ (List.mem_singleton_self _)
    · exact i3 c hc hdir hnb

theorem pushBucket_foldl {FS FN : Type} (name : FS → FN → Str)
    (buildSequences : FS → List FN → List Sequence) (isDirectory : Sequence → Bool)
    (getNbFrames : FrameRange → Int) :
    ∀ (sequences : List (FS × List FN)) (out : List Str × List Sequence),
      ((∀ s ∈ out.2, s.getNbFiles getNbFrames ≠ 1) →
        ∀ s ∈ (sequences.foldl (pushBucket name buildSequences isDirectory getNbFrames) out).2,
          s.getNbFiles getNbFrames ≠ 1) ∧
      (∀ x ∈ out.1,
        x ∈ (sequences.foldl (pushBucket name buildSequences isDirectory getNbFrames) out).1) ∧
      (∀ p ∈ sequences, p.2.length ≠ 1 → ∀ c ∈ buildSequences p.1 p.2,
        isDirectory c = false → c.getNbFiles getNbFrames = 1 →
        c.getFirstFilename
          ∈ (sequences.foldl (pushBucket name buildSequences isDirectory getNbFrames) out).1) ∧
      (∀ p ∈ sequences, ∀ v, p.2 = [v] →
        name p.1 v
          ∈ (sequences.foldl (pushBucket name buildSequences isDirectory getNbFrames) out).1) := by
  intro sequences
  induction sequences with
  | nil =>
    intro out
    exact ⟨fun h => h, fun x hx => hx, fun p hp => absurd hp (List.not_mem_nil p),
      fun p hp => absurd hp (List.not_mem_nil p)⟩
  | cons q qs ih =>
    intro out
    rw [List.foldl_cons]
    obtain ⟨i1, i2, i3, i4⟩ := ih (pushBucket name buildSequences isDirectory getNbFrames out q)
    have m1 : (∀ s ∈ out.2, s.getNbFiles getNbFrames ≠ 1) →
        ∀ s ∈ (pushBucket name buildSequences isDirectory getNbFrames out q).2,
          s.getNbFiles getNbFrames ≠ 1 := by
      intro h
      unfold pushBucket
      split
      · exact h
      · exact (pushFileObject_foldl isDirectory getNbFrames _ out).1 h
    have m2 : ∀ y ∈ out.1, y ∈ (pushBucket name buildSequences isDirectory getNbFrames out q).1 := by
      intro y hy
      unfold pushBucket
      split
      · exact List.mem_append_left _ hy
      · exact (pushFileObject_foldl isDirectory getNbFrames _ out).2.1 y hy
    refine ⟨fun h => i1 (m1 h), fun y hy => i2 y (m2 y hy), ?_, ?_⟩
    · intro p hp hlen c hc hdir hnb
      rcases List.mem_cons.mp hp with rfl | hp
      · apply i2
        unfold pushBucket
        split
        · rename_i v hv
          rw [hv] at hlen
          exact absurd rfl hlen
        · exact (pushFileObject_foldl isDirectory getNbFrames _ out).2.2 c hc hdir hnb
      · exact i3 p hp hlen c hc hdir hnb
    · intro p hp v hv
      rcases List.mem_cons.mp hp with rfl | hp
      · apply i2
        unfold pushBucket
        rw [hv]
        exact List.mem_append_right _ (List.mem_singleton_self _)
      · exact i4 p hp v hv

/-- C23: without the dot-file option, the buckets and the result of `sequenceFromFilenameList`
are those of the list without the file names that start with `.`; with the option, a round
of the scan treats every file name alike, whatever its first character is. -/
theorem sequenceFromFilenameList_dot_files {FS FN : Type} [DecidableEq FS]
    (desc eMaskOptionsDotFile : Nat) (filenameIsNotFilter : Str → Bool)
    (decomposeFilename : Str → Nat → Option (FS × FN))
    (buildSequences : FS → List FN → List Sequence) (isDirectory : Sequence → Bool)
    (getNbFrames : FrameRange → Int) (filenames : List Str) :
    (desc &&& eMaskOptionsDotFile = 0 →
      bucketsOfFilenameList desc eMaskOptionsDotFile filenameIsNotFilter decomposeFilename
          filenames
        = bucketsOfFilenameList desc eMaskOptionsDotFile filenameIsNotFilter decomposeFilename
          (filenames.filter (fun f => decide (f.head? ≠ some '.'))) ∧
      sequenceFromFilenameList desc eMaskOptionsDotFile filenameIsNotFilter decomposeFilename
          buildSequences isDirectory getNbFrames filenames
        = sequenceFromFilenameList desc eMaskOptionsDotFile filenameIsNotFilter
          decomposeFilename buildSequences isDirectory getNbFrames
          (filenames.filter (fun f => decide (f.head? ≠ some '.')))) ∧
    (desc &&& eMaskOptionsDotFile ≠ 0 →
      ∀ (sequences : List (FS × List FN)) (filename : Str),
        scanFilename desc eMaskOptionsDotFile filenameIsNotFilter decomposeFilename sequences
            filename
          = if filenameIsNotFilter filename then
              match decomposeFilename filename desc with
              | some (k, v) => insertBucket sequences k v
              | none => sequences
            else sequences) := by
  constructor
  · intro hopt
    have hb : bucketsOfFilenameList desc eMaskOptionsDotFile filenameIsNotFilter
        decomposeFilename filenames
        = bucketsOfFilenameList desc eMaskOptionsDotFile filenameIsNotFilter decomposeFilename
          (filenames.filter (fun f => decide (f.head? ≠ some '.'))) := by
      unfold bucketsOfFilenameList
      apply foldl_filter
      intro acc f hf
      have hhead : f.head? = some '.' := by simpa using hf
      have hd : f.headD (Char.ofNat 0) = '.' := by
        cases f with
        | nil => simp at hhead
        | cons c rest =>
          simp only [List.head?_cons, Option.some.injEq] at hhead
          rw [hhead]; rfl
      unfold scanFilename
      rw [if_neg]
      rw [not_or]
      exact ⟨fun h => h hd, fun h => h hopt⟩
    refine ⟨hb, ?_⟩
    unfold sequenceFromFilenameList
    rw [hb]
  · intro hopt sequences filename
    unfold scanFilename
    rw [if_pos (Or.inr hopt)]

/-- Witness of C23: the digits of a name as its number and the rest as its key; without the
option the hidden name `.a1` leaves no bucket, with it the name has its bucket. -/
theorem sequenceFromFilenameList_dot_files_witness :
    bucketsOfFilenameList 0 1 (fun _ => true)
        (fun name _ => some (name.filter (fun c => !isDigit c), name.filter isDigit))
        [['.', 'a', '1'], ['b', '2'], ['b', '3']]
      = [(['b'], [['2'], ['3']])] ∧
    bucketsOfFilenameList 1 1 (fun _ => true)
        (fun name _ => some (name.filter (fun c => !isDigit c), name.filter isDigit))
        [['.', 'a', '1'], ['b', '2'], ['b', '3']]
      = [(['.', 'a'], [['1']]), (['b'], [['2'], ['3']])] ∧
    bucketsOfFilenameList 0 1 (fun _ => true)
        (fun name _ => some (name.filter (fun c => !isDigit c), name.filter isDigit))
        [['.', 'a', '1'], ['b', '2'], ['b', '3']]
      = bucketsOfFilenameList 0 1 (fun _ => true)
        (fun name _ => some (name.filter (fun c => !isDigit c), name.filter isDigit))
        ([['.', 'a', '1'], ['b', '2'], ['b', '3']].filter (fun f => decide (f.head? ≠ some '.'))) :=
  ⟨by decide, by decide,
    ((sequenceFromFilenameList_dot_files 0 1 (fun _ => true)
      (fun name _ => some (name.filter (fun c => !isDigit c), name.filter isDigit))
      (fun _ _ => []) (fun _ => false) (fun _ => 0)
      [['.', 'a', '1'], ['b', '2'], ['b', '3']]).1 (by decide)).1⟩

/-- C25: for a bucket of one file name with the fragments `frags` and the raw numbers `raws`,
one fragment more than numbers, the name `fileObjectInDirectory` builds is
`s0 n0 s1 .. n(k-1) sk`, for any number of numeric fields. -/
theorem singletonFilenameAll_eq (frags raws : List Str) (h : frags.length = raws.length + 1) :
    singletonFilenameAll (fun i => frags[i]?) (fun i => raws.getD i []) raws.length
      = some (splice frags raws) := by
  cases frags with
  | nil => simp at h
  | cons s₀ ss =>
    have hl : ss.length = raws.length := by simpa using h
    have e := singletonFilenameAll_splice raws ss [] s₀ hl
    simp only [List.nil_append] at e
    unfold singletonFilenameAll
    simp only [List.getElem?_cons_zero]
    exact e

/-- Witness of C25 on the fragments `a`, `b`, `.jpg` and the numbers `01`, `2` of
`a01b2.jpg`. -/
theorem singletonFilenameAll_eq_witness :
    splice [['a'], ['b'], ['.', 'j', 'p', 'g']] [['0', '1'], ['2']]
      = ['a', '0', '1', 'b', '2', '.', 'j', 'p', 'g'] ∧
    singletonFilenameAll (fun i => [['a'], ['b'], ['.', 'j', 'p', 'g']][i]?)
        (fun i => [['0', '1'], ['2']].getD i []) [['0', '1'], ['2']].length
      = some (splice [['a'], ['b'], ['.', 'j', 'p', 'g']] [['0', '1'], ['2']]) :=
  ⟨by decide, singletonFilenameAll_eq _ _ (by decide)⟩

/-- C26: no sequence in the output of the sequence-only detectors or of the mixed detectors has
`getNbFiles() == 1`; in the mixed detectors a candidate of one file, built for a bucket of
several members, is put among the files under its first file name, and the member of a bucket
of one is put there under the name made for it. -/
theorem no_sequence_of_one_file {FS FN : Type} [DecidableEq FS]
    (buildSequences : FS → List FN → List Sequence) (isDirectory : Sequence → Bool)
    (getNbFrames : FrameRange → Int) :
    (∀ (desc eMaskOptionsDotFile : Nat) (filenameIsNotFilter : Str → Bool)
        (decomposeFilename : Str → Nat → Option (FS × FN)) (filenames : List Str),
      ∀ s ∈ sequenceFromFilenameList desc eMaskOptionsDotFile filenameIsNotFilter
          decomposeFilename buildSequences isDirectory getNbFrames filenames,
        s.getNbFiles getNbFrames ≠ 1) ∧
    (∀ (sequences : List (FS × List FN)),
      ∀ s ∈ sequencesOfBuckets buildSequences isDirectory getNbFrames sequences,
        s.getNbFiles getNbFrames ≠ 1) ∧
    (∀ (name : FS → FN → Str) (outputFiles : List Str) (sequences : List (FS × List FN)),
      (∀ s ∈ (fileObjectsOfBuckets name buildSequences isDirectory getNbFrames outputFiles
          sequences).2, s.getNbFiles getNbFrames ≠ 1) ∧
      (∀ p ∈ sequences, p.2.length ≠ 1 → ∀ c ∈ buildSequences p.1 p.2,
        isDirectory c = false → c.getNbFiles getNbFrames = 1 →
        c.getFirstFilename ∈ (fileObjectsOfBuckets name buildSequences isDirectory getNbFrames
          outputFiles sequences).1) ∧
      (∀ p ∈ sequences, ∀ v, p.2 = [v] →
        name p.1 v ∈ (fileObjectsOfBuckets name buildSequences isDirectory getNbFrames
          outputFiles sequences).1)) := by
  refine ⟨?_, ?_, ?_⟩
  · intro desc dot nf dec filenames
    exact sequencesOfBuckets_foldl_ne_one buildSequences isDirectory getNbFrames _ []
      (fun s hs => absurd hs (List.not_mem_nil s))
  · intro sequences
    exact sequencesOfBuckets_foldl_ne_one buildSequences isDirectory getNbFrames _ []
      (fun s hs => absurd hs (List.not_mem_nil s))
  · intro name outputFiles sequences
    obtain ⟨i1, _, i3, i4⟩ := pushBucket_foldl name buildSequences isDirectory getNbFrames
      sequences (outputFiles, [])
    exact ⟨i1 (fun s hs => absurd hs (List.not_mem_nil s)), i3, i4⟩

/-- Witness of C26: buckets keyed by a text, a builder that makes one sequence of one frame
per member, the number of frames of a range counted as `last - first + 1`: the sequence-only
loop gives nothing and the mixed loop gives the two first file names as files. -/
theorem no_sequence_of_one_file_witness :
    sequencesOfBuckets
        (fun (k : Str) (vs : List Int) => vs.map (fun v => Sequence.mk k [] false 1 [⟨v, v, 1⟩]))
        (fun _ => false) (fun r => r.last - r.first + 1) [(['f'], [1, 5])] = [] ∧
    fileObjectsOfBuckets (fun (k : Str) (v : Int) => k ++ showInt v)
        (fun (k : Str) (vs : List Int) => vs.map (fun v => Sequence.mk k [] false 1 [⟨v, v, 1⟩]))
        (fun _ => false) (fun r => r.last - r.first + 1) [] [(['f'], [1, 5]), (['g'], [7])]
      = ([['f', '1'], ['f', '5'], ['g', '7']], []) ∧
    ∀ s ∈ sequencesOfBuckets
        (fun (k : Str) (vs : List Int) => vs.map (fun v => Sequence.mk k [] false 1 [⟨v, v, 1⟩]))
        (fun _ => false) (fun r => r.last - r.first + 1) [(['f'], [1, 5])],
      s.getNbFiles (fun r => r.last - r.first + 1) ≠ 1 :=
  ⟨by decide, by decide,
    (no_sequence_of_one_file
      (fun (k : Str) (vs : List Int) => vs.map (fun v => Sequence.mk k [] false 1 [⟨v, v, 1⟩]))
      (fun _ => false) (fun r => r.last - r.first + 1)).2.1 [(['f'], [1, 5])]⟩


/-! ## The set of paddings of a column -/

theorem setInsert_pairwise (x : Nat) (l : List Nat) (h : l.Pairwise (· < ·)) :
    (setInsert x l).Pairwise (· < ·) := by
  induction l with
  | nil => simp [setInsert]
  | cons z zs ih =>
    rw [List.pairwise_cons] at h
    unfold setInsert
    by_cases h1 : x < z
    · rw [if_pos h1, List.pairwise_cons]
      refine ⟨?_, List.pairwise_cons.mpr h⟩
      intro a ha
      rcases List.mem_cons.mp ha with rfl | ha
      · exact h1
      · exact lt_trans h1 (h.1 a ha)
    · rw [if_neg h1]
      by_cases h2 : x = z
      · rw [if_pos h2]
        exact List.pairwise_cons.mpr h
      · rw [if_neg h2, List.pairwise_cons]
        refine ⟨?_, ih h.2⟩
        intro a ha
        rcases (mem_setInsert x a zs).mp ha with rfl | ha
        · omega
        · exact h.1 a ha

theorem foldl_setInsert {α : Type} (f : α → Nat) : ∀ (times : List α) (acc : List Nat),
    (∀ y, y ∈ times.foldl (fun set s => setInsert (f s) set) acc ↔
      y ∈ acc ∨ ∃ s ∈ times, f s = y) ∧
    (acc.Pairwise (· < ·) →
      (times.foldl (fun set s => setInsert (f s) set) acc).Pairwise (· < ·)) := by
  intro times
  induction times with
  | nil => intro acc; simp
  | cons t ts ih =>
    intro acc
    obtain ⟨i1, i2⟩ := ih (setInsert (f t) acc)
    rw [List.foldl_cons]
    refine ⟨?_, fun h => i2 (setInsert_pairwise _ _ h)⟩
    intro y
    rw [i1 y, mem_setInsert]
    constructor
    · rintro ((rfl | h) | ⟨s, hs, rfl⟩)
      · exact Or.inr ⟨t, List.mem_cons_self _ _, rfl⟩
      · exact Or.inl h
      · exact Or.inr ⟨s, List.mem_cons_of_mem _ hs, rfl⟩
    · rintro (h | ⟨s, hs, rfl⟩)
      · exact Or.inl (Or.inr h)
      · rcases List.mem_cons.mp hs with rfl | hs
        · exact Or.inl (Or.inl rfl)
        · exact Or.inr ⟨s, hs, rfl⟩

theorem nonzeroPaddings {α : Type} (f : α → Nat) (times : List α) :
    (∀ y, y ∈ setErase 0 (times.foldl (fun set s => setInsert (f s) set) []) ↔
      y ≠ 0 ∧ ∃ s ∈ times, f s = y) ∧
    (setErase 0 (times.foldl (fun set s => setInsert (f s) set) [])).Nodup := by
  obtain ⟨i1, i2⟩ := foldl_setInsert f times []
  constructor
  · intro y
    unfold setErase
    rw [List.mem_filter, i1 y]
    simp only [List.not_mem_nil, false_or, decide_eq_true_eq]
    exact and_comm
  · have hp : (setErase 0 (times.foldl (fun set s => setInsert (f s) set) [])).Pairwise
        (· < ·) := List.Pairwise.filter _ (i2 List.Pairwise.nil)
    exact hp.imp (fun hab => ne_of_lt hab)

theorem length_le_one_of_all_eq (l : List Nat) (p : Nat) (hn : l.Nodup)
    (h : ∀ y ∈ l, y = p) : l.length ≤ 1 := by
  match l, hn, h with
  | [], _, _ => simp
  | [_], _, _ => simp
  | a :: b :: rest, hn, h =>
    have ha := h a (List.mem_cons_self _ _)
    have hb := h b (List.mem_cons_of_mem _ (List.mem_cons_self _ _))
    rw [List.nodup_cons] at hn
    exact absurd (by rw [ha, hb]; exact List.mem_cons_self _ _) hn.1

theorem two_le_length_of_ne (l : List Nat) (a b : Nat) (ha : a ∈ l) (hb : b ∈ l)
    (hab : a ≠ b) : 2 ≤ l.length := by
  match l, ha, hb with
  | [], ha, _ => exact absurd ha (List.not_mem_nil a)
  | [x], ha, hb =>
    rw [List.mem_singleton] at ha hb
    exact absurd (ha.trans hb.symm) hab
  | _ :: _ :: rest, _, _ => simp

/-! ## Claims on the padding of a column -/

/-- C31: for a run of bucket members (not empty, as the source asserts, or empty) and a column
`i`, `extractPadding` returns 0 when no member has a non-zero padding in the column, `p` when
the non-zero paddings of the members are all equal to `p`, and 0 when two distinct non-zero
paddings occur; so a non-zero result is the padding of every member whose padding in that
column is not 0. -/
theorem extractPaddingAt_spec {FileNumbers : Type} (getPadding : FileNumbers → Nat → Nat)
    (times : List FileNumbers) (i : Nat) :
    ((∀ s ∈ times, getPadding s i = 0) → extractPaddingAt getPadding times i = 0) ∧
    (∀ p, p ≠ 0 → (∃ s ∈ times, getPadding s i = p) →
      (∀ s ∈ times, getPadding s i ≠ 0 → getPadding s i = p) →
      extractPaddingAt getPadding times i = p) ∧
    ((∃ s ∈ times, ∃ t ∈ times, getPadding s i ≠ 0 ∧ getPadding t i ≠ 0
        ∧ getPadding s i ≠ getPadding t i) → extractPaddingAt getPadding times i = 0) ∧
    (extractPaddingAt getPadding times i ≠ 0 →
      ∀ s ∈ times, getPadding s i = 0
        ∨ getPadding s i = extractPaddingAt getPadding times i) := by
  obtain ⟨hmem, hnd⟩ := nonzeroPaddings (fun s => getPadding s i) times
  have hdef : extractPaddingAt getPadding times i =
      if (setErase 0 (times.foldl (fun set s => setInsert (getPadding s i) set) [])).length = 0
      then 0
      else if (setErase 0
          (times.foldl (fun set s => setInsert (getPadding s i) set) [])).length = 1
        then (setErase 0
          (times.foldl (fun set s => setInsert (getPadding s i) set) [])).headD 0
        else 0 := rfl
  obtain ⟨pad, hpad⟩ : ∃ pad,
      setErase 0 (times.foldl (fun set s => setInsert (getPadding s i) set) []) = pad :=
    ⟨_, rfl⟩
  rw [hpad] at hmem hnd hdef
  refine ⟨?_, ?_, ?_, ?_⟩
  · intro h0
    have he : pad = [] := by
      apply List.eq_nil_iff_forall_not_mem.mpr
      intro y hy
      obtain ⟨hy0, s, hs, rfl⟩ := (hmem y).mp hy
      exact hy0 (h0 s hs)
    rw [hdef, he]
    rfl
  · intro p hp0 hex hall
    have hin : p ∈ pad := (hmem p).mpr ⟨hp0, hex⟩
    have hle : pad.length ≤ 1 := by
      apply length_le_one_of_all_eq pad p hnd
      intro y hy
      obtain ⟨hy0, s, hs, rfl⟩ := (hmem y).mp hy
      exact hall s hs hy0
    match pad, hin, hle, hdef with
    | [q], hin, _, hdef =>
      rw [hdef, List.mem_singleton.mp hin]
      rfl
    | [], hin, _, _ => exact absurd hin (List.not_mem_nil p)
    | _ :: _ :: _, _, hle, _ => simp at hle
  · rintro ⟨s, hs, t, ht, hs0, ht0, hst⟩
    have h2 : 2 ≤ pad.length := two_le_length_of_ne pad _ _
      ((hmem _).mpr ⟨hs0, s, hs, rfl⟩) ((hmem _).mpr ⟨ht0, t, ht, rfl⟩) hst
    rw [hdef, if_neg (by omega), if_neg (by omega)]
  · intro hne s hs
    by_cases hs0 : getPadding s i = 0
    · exact Or.inl hs0
    · right
      have hin : getPadding s i ∈ pad := (hmem _).mpr ⟨hs0, s, hs, rfl⟩
      match pad, hin, hdef with
      | [], hin, _ => exact absurd hin (List.not_mem_nil _)
      | [q], hin, hdef =>
        rw [hdef, List.mem_singleton.mp hin]
        rfl
      | a :: b :: rest, _, hdef =>
        rw [hdef] at hne
        simp at hne

/-- Witness of C31: members given by the list of their paddings, column by column; the
paddings 0, 4, 4 give 4, the paddings 3, 4 give 0 and the paddings 0, 0 give 0. -/
theorem extractPaddingAt_spec_witness :
    extractPaddingAt (fun (s : List Nat) i => s.getD i 0) [[0], [4], [4]] 0 = 4 ∧
    extractPaddingAt (fun (s : List Nat) i => s.getD i 0) [[3], [4]] 0 = 0 ∧
    extractPaddingAt (fun (s : List Nat) i => s.getD i 0) [[0], [0]] 0 = 0 ∧
    (extractPaddingAt (fun (s : List Nat) i => s.getD i 0) [[0], [4], [4]] 0 ≠ 0 →
      ∀ s ∈ [[0], [4], [4]], (fun (s : List Nat) i => s.getD i 0) s 0 = 0
        ∨ (fun (s : List Nat) i => s.getD i 0) s 0
          = extractPaddingAt (fun (s : List Nat) i => s.getD i 0) [[0], [4], [4]] 0) :=
  ⟨by decide, by decide, by decide,
    (extractPaddingAt_spec (fun (s : List Nat) i => s.getD i 0) [[0], [4], [4]] 0).2.2.2⟩

end sequenceParser
